import Mathlib

/-!
Verification development for the layered-query core of the repository
(`src/splitgraph/core/fdw_checkout.py` and `src/splitgraph/engine/__init__.py`).

Tables are modelled as association lists from the change key (the primary-key
tuple, per `ChangeEngine.get_change_key`) to the remaining (non-key) column
values.  `K` is the type of change keys, `V` the type of non-key payloads.
The model covers tables whose change key uniquely identifies rows
(invariant `NodupKeys`, the discipline of spec invariant I5 and the
change-key glossary entry).
-/

/-- A table: list of (change key, non-key payload) rows. -/
abbrev Table (K V : Type) := List (K × V)

variable {K V : Type}

/-- Row lookup by change key (first match). -/
def lookupT [DecidableEq K] : Table K V → K → Option V
  | [], _ => none
  | (k1, v) :: t, k => if k = k1 then some v else lookupT t k

/-- The change key uniquely identifies a row in the table. -/
def NodupKeys (t : Table K V) : Prop := (t.map Prod.fst).Nodup

instance [DecidableEq K] (t : Table K V) : Decidable (NodupKeys t) := by
  unfold NodupKeys; infer_instance

/-- A change record of a diff fragment: INSERT (action 0), DELETE (action 1)
or UPDATE (action 2), keyed by change key.  The DELETE record carries no
payload; INSERT and UPDATE carry the new non-key payload
(spec section 3, "Change record"; `ChangeEngine.get_pending_changes`). -/
inductive Change (K V : Type)
  | ins (k : K) (v : V)
  | del (k : K)
  | upd (k : K) (v : V)
deriving DecidableEq

/-- A diff fragment: a list of change records. -/
abbrev Diff (K V : Type) := List (Change K V)

/-- True iff the diff holds a DELETE record for key `k`. -/
def delKeyB [DecidableEq K] (d : Diff K V) (k : K) : Bool :=
  d.any fun c => match c with
    | .del k1 => decide (k1 = k)
    | _ => false

/-- True iff the diff holds an UPDATE record for key `k`
(`sg_action_kind = 2` in the Step-A join of `execute`). -/
def updKeyB [DecidableEq K] (d : Diff K V) (k : K) : Bool :=
  d.any fun c => match c with
    | .upd k1 _ => decide (k1 = k)
    | _ => false

/-- The diff holds an UPDATE record for key `k` (propositional form). -/
def hasUpdDiff (d : Diff K V) (k : K) : Prop := ∃ v, Change.upd k v ∈ d

/-- Some diff of the chain holds an UPDATE record for key `k`. -/
def hasUpd (chain : List (Diff K V)) (k : K) : Prop :=
  ∃ d ∈ chain, hasUpdDiff d k

/-- Modelled from the spec: the DELETE pass of `FragmentStore.apply_diff` /
`PostgresEngine.apply_diff_object` (the Postgres engine module is not under
`src/`; spec section 4.2 mandates all DELETEs first, each applied by change
key). -/
def delPass [DecidableEq K] {β : Type} (d : Diff K V) (t : Table K β) : Table K β :=
  t.filter fun r => !(delKeyB d r.1)

/-- SQL UPDATE of the non-key payload of the row with key `k` (no-op when the
key is absent, as in SQL). -/
def updRow [DecidableEq K] (k : K) (v : V) (t : Table K V) : Table K V :=
  t.map fun r => if r.1 = k then (r.1, v) else r

/-- UPDATE against the staging table: sets the payload, keeps the row's
`sg_meta_keep_pk` marker. -/
def updRowS [DecidableEq K] (k : K) (v : V) (t : Table K (V × Bool)) :
    Table K (V × Bool) :=
  t.map fun r => if r.1 = k then (r.1, (v, r.2.2)) else r

/-- Modelled from the spec: applying one INSERT record by change key.  When
the key already exists the payload is overwritten (spec section 4.2: applying
an I5-respecting diff never fails, so a conflicting INSERT cannot abort; on
valid chains the branch is never exercised). -/
def insRow [DecidableEq K] (k : K) (v : V) (t : Table K V) : Table K V :=
  match lookupT t k with
  | some _ => updRow k v t
  | none => t ++ [(k, v)]

/-- INSERT against the staging table: a freshly inserted row gets
`sg_meta_keep_pk = TRUE` (the column default set in `execute`); an
overwritten row keeps its marker. -/
def insRowS [DecidableEq K] (k : K) (v : V) (t : Table K (V × Bool)) :
    Table K (V × Bool) :=
  match lookupT t k with
  | some _ => updRowS k v t
  | none => t ++ [(k, (v, true))]

/-- Modelled from the spec: UPDATE pass of diff application (section 4.2). -/
def updPass [DecidableEq K] (d : Diff K V) (t : Table K V) : Table K V :=
  d.foldl (fun t c => match c with
    | .upd k v => updRow k v t
    | _ => t) t

/-- UPDATE pass against the staging table. -/
def updPassS [DecidableEq K] (d : Diff K V) (t : Table K (V × Bool)) :
    Table K (V × Bool) :=
  d.foldl (fun t c => match c with
    | .upd k v => updRowS k v t
    | _ => t) t

/-- Modelled from the spec: INSERT pass of diff application (section 4.2). -/
def insPass [DecidableEq K] (d : Diff K V) (t : Table K V) : Table K V :=
  d.foldl (fun t c => match c with
    | .ins k v => insRow k v t
    | _ => t) t

/-- INSERT pass against the staging table. -/
def insPassS [DecidableEq K] (d : Diff K V) (t : Table K (V × Bool)) :
    Table K (V × Bool) :=
  d.foldl (fun t c => match c with
    | .ins k v => insRowS k v t
    | _ => t) t

/-- Modelled from the spec: `apply_diff` (section 4.2) — all DELETEs, then
UPDATEs, then INSERTs, each applied against the target by change key. -/
def applyDiff [DecidableEq K] (d : Diff K V) (t : Table K V) : Table K V :=
  insPass d (updPass d (delPass d t))

/-- Diff application against the staging table (payloads carry the
`sg_meta_keep_pk` marker). -/
def applyDiffS [DecidableEq K] (d : Diff K V) (t : Table K (V × Bool)) :
    Table K (V × Bool) :=
  insPassS d (updPassS d (delPass d t))

/-- The fully materialized table of an image: the snapshot with all diffs of
the chain applied in order (spec sections 4.5 and 8, `materialize(I,T)`). -/
def materialize [DecidableEq K] (S : Table K V) (chain : List (Diff K V)) :
    Table K V :=
  chain.foldl (fun t d => applyDiff d t) S

/-- A pushed-down qual on a single column: either on a change-key column
(a predicate on the key) or on a non-key column (a predicate on the
payload).  Mirrors the Multicorn quals of `execute`. -/
inductive FQual (K V : Type)
  | keyQ (p : K → Bool)
  | valQ (p : V → Bool)

/-- Evaluate one qual on a row. -/
def evalQual (q : FQual K V) (r : K × V) : Bool :=
  match q with
  | .keyQ p => p r.1
  | .valQ p => p r.2

/-- `q.field_name in ri_cols`: the qual touches only change-key columns. -/
def isKeyQual : FQual K V → Bool
  | .keyQ _ => true
  | .valQ _ => false

/-- The conjunction of pushed-down quals (spec: quals are ANDed together). -/
def evalQuals (quals : List (FQual K V)) (r : K × V) : Bool :=
  quals.all (evalQual · r)

/-- `pk_only_quals = all(q.field_name in ri_cols for q in quals)`
(fdw_checkout.py line 120). -/
def pkOnlyQuals (quals : List (FQual K V)) : Bool := quals.all isKeyQual

/-- Step A for one diff (fdw_checkout.py lines 122-136): insert into the
staging table every snapshot row whose change key appears in the diff with
`sg_action_kind = 2`, marking it `sg_meta_keep_pk = TRUE`,
`ON CONFLICT DO NOTHING`. -/
def stepADiff [DecidableEq K] (S : Table K V) (d : Diff K V)
    (t : Table K (V × Bool)) : Table K (V × Bool) :=
  S.foldl (fun t r =>
    if updKeyB d r.1 && (lookupT t r.1).isNone then t ++ [(r.1, (r.2, true))]
    else t) t

/-- Step A over the whole chain, in chain order, starting from the empty
staging table. -/
def stepA [DecidableEq K] (S : Table K V) (chain : List (Diff K V)) :
    Table K (V × Bool) :=
  chain.foldl (fun t d => stepADiff S d t) []

/-- Step B (fdw_checkout.py lines 138-148): insert every snapshot row
satisfying the quals (all rows when there are no quals), marked
`sg_meta_keep_pk = FALSE`, `ON CONFLICT DO NOTHING`. -/
def stepB [DecidableEq K] (S : Table K V) (quals : List (FQual K V))
    (t0 : Table K (V × Bool)) : Table K (V × Bool) :=
  S.foldl (fun t r =>
    if evalQuals quals r && (lookupT t r.1).isNone then t ++ [(r.1, (r.2, false))]
    else t) t0

/-- `_apply_qual_filter` (fdw_checkout.py lines 26-35):
`DELETE FROM staging WHERE sg_meta_keep_pk = FALSE AND NOT (quals)`. -/
def applyQualFilter [DecidableEq K] (quals : List (FQual K V))
    (t : Table K (V × Bool)) : Table K (V × Bool) :=
  t.filter fun r => !(!r.2.2 && !(evalQuals quals (r.1, r.2.1)))

/-- Step C (fdw_checkout.py lines 150-155): apply each diff but the last to
the staging table; after each application, when there are quals, delete the
staging rows that no longer match them. -/
def stepCFold [DecidableEq K] (quals : List (FQual K V))
    (ds : List (Diff K V)) (t : Table K (V × Bool)) : Table K (V × Bool) :=
  ds.foldl (fun t d =>
    let t1 := applyDiffS d t
    if quals.isEmpty then t1 else applyQualFilter quals t1) t

/-- Drop the `sg_meta_keep_pk` column (the final `SELECT cols FROM staging`
does not select it). -/
def stripKeep (t : Table K (V × Bool)) : Table K V :=
  t.map fun r => (r.1, r.2.1)

/-- `QueryingForeignDataWrapper.execute` (fdw_checkout.py lines 85-164):
fast path when the diff chain is empty (the select goes straight to the
snapshot, without the quals — `_run_select_from_staging` applies none);
otherwise the staging-table algorithm: Step A (skipped when
`pk_only_quals`), Step B, Step C over all diffs but the last, and the final
diff applied with no qual filter. -/
def execute [DecidableEq K] (S : Table K V) (chain : List (Diff K V))
    (quals : List (FQual K V)) : Table K V :=
  match chain with
  | [] => S
  | d :: ds =>
    let pk_only := pkOnlyQuals quals
    let t0 := if pk_only then [] else stepA S (d :: ds)
    let t1 := stepB S quals t0
    let t2 := stepCFold quals (d :: ds).dropLast t1
    let t3 := applyDiffS ((d :: ds).getLast (List.cons_ne_nil d ds)) t2
    stripKeep t3

/-! ### Lookup characterizations of the table operations -/

theorem lookupT_append_some [DecidableEq K] {t u : Table K V} {k : K} {v : V}
    (h : lookupT t k = some v) : lookupT (t ++ u) k = some v := by
  induction t with
  | nil => simp [lookupT] at h
  | cons r t ih =>
    cases r with
    | mk k1 w =>
      rw [List.cons_append]
      by_cases hk : k = k1
      · simp only [lookupT, if_pos hk] at h ⊢; exact h
      · simp only [lookupT, if_neg hk] at h ⊢; exact ih h

theorem lookupT_append_none [DecidableEq K] {t : Table K V} (u : Table K V) {k : K}
    (h : lookupT t k = none) : lookupT (t ++ u) k = lookupT u k := by
  induction t with
  | nil => simp
  | cons r t ih =>
    cases r with
    | mk k1 w =>
      rw [List.cons_append]
      by_cases hk : k = k1
      · simp only [lookupT, if_pos hk] at h; exact absurd h (by simp)
      · simp only [lookupT, if_neg hk] at h ⊢; exact ih h

theorem lookupT_eq_none_iff [DecidableEq K] {t : Table K V} {k : K} :
    lookupT t k = none ↔ k ∉ t.map Prod.fst := by
  induction t with
  | nil => simp [lookupT]
  | cons r t ih =>
    cases r with
    | mk k1 w =>
      by_cases hk : k = k1
      · subst hk; simp [lookupT]
      · simp only [lookupT, if_neg hk, List.map_cons, List.mem_cons, ih]
        constructor
        · rintro h (rfl | hmem)
          · exact hk rfl
          · exact h hmem
        · intro h hmem; exact h (Or.inr hmem)

theorem mem_iff_lookupT [DecidableEq K] {t : Table K V} (h : NodupKeys t)
    {k : K} {v : V} : (k, v) ∈ t ↔ lookupT t k = some v := by
  induction t with
  | nil => simp [lookupT]
  | cons r t ih =>
    cases r with
    | mk k1 w =>
      have hnd : k1 ∉ t.map Prod.fst ∧ NodupKeys t := by
        simpa [NodupKeys, List.nodup_cons] using h
      have hk1 := hnd.1
      have h1 := hnd.2
      by_cases hk : k = k1
      · subst hk
        have hl : lookupT ((k, w) :: t) k = some w := by simp [lookupT]
        rw [hl]
        simp only [List.mem_cons, Option.some.injEq]
        constructor
        · rintro (heq | hmem)
          · exact ((Prod.ext_iff.mp heq).2).symm
          · exact absurd (List.mem_map_of_mem Prod.fst hmem) hk1
        · rintro rfl; exact Or.inl rfl
      · simp only [lookupT, if_neg hk, List.mem_cons, ih h1]
        constructor
        · rintro (heq | hmem)
          · exact absurd (congrArg Prod.fst heq) hk
          · exact hmem
        · exact Or.inr

theorem nodupKeys_append_single [DecidableEq K] {t : Table K V} {k : K} {v : V}
    (h : NodupKeys t) (hk : lookupT t k = none) : NodupKeys (t ++ [(k, v)]) := by
  have hk2 : k ∉ t.map Prod.fst := lookupT_eq_none_iff.mp hk
  simp only [NodupKeys, List.map_append, List.map_cons, List.map_nil]
  rw [List.nodup_append]
  refine ⟨h, List.nodup_singleton k, ?_⟩
  intro a ha hak
  rw [List.mem_singleton] at hak
  subst hak
  exact hk2 ha

theorem lookupT_map_payload [DecidableEq K] {β γ : Type} (f : K → β → γ)
    (t : Table K β) (k : K) :
    lookupT (t.map (fun r => (r.1, f r.1 r.2))) k = (lookupT t k).map (f k) := by
  induction t with
  | nil => rfl
  | cons r t ih =>
    cases r with
    | mk k2 w =>
      by_cases h1 : k = k2
      · subst h1; simp [lookupT]
      · simp [lookupT, h1, ih]

theorem lookupT_updRow [DecidableEq K] (k : K) (v : V) (t : Table K V) (k1 : K) :
    lookupT (updRow k v t) k1 =
      if k1 = k then (lookupT t k1).map (fun _ => v) else lookupT t k1 := by
  have hmap : updRow k v t = t.map (fun r => (r.1, if r.1 = k then v else r.2)) := by
    unfold updRow
    congr 1
    funext r
    by_cases h : r.1 = k <;> simp [h]
  rw [hmap, lookupT_map_payload (fun k2 w => if k2 = k then v else w)]
  by_cases h1 : k1 = k
  · subst h1
    rw [if_pos rfl]
    cases lookupT t k1 <;> simp
  · rw [if_neg h1]
    cases lookupT t k1 <;> simp [h1]

theorem lookupT_updRowS [DecidableEq K] (k : K) (v : V) (t : Table K (V × Bool))
    (k1 : K) :
    lookupT (updRowS k v t) k1 =
      if k1 = k then (lookupT t k1).map (fun p => (v, p.2)) else lookupT t k1 := by
  have hmap : updRowS k v t =
      t.map (fun r => (r.1, if r.1 = k then (v, r.2.2) else r.2)) := by
    unfold updRowS
    congr 1
    funext r
    by_cases h : r.1 = k <;> simp [h]
  rw [hmap, lookupT_map_payload (fun k2 w => if k2 = k then (v, w.2) else w)]
  by_cases h1 : k1 = k
  · subst h1
    rw [if_pos rfl]
    cases lookupT t k1 <;> simp
  · rw [if_neg h1]
    cases lookupT t k1 <;> simp [h1]

theorem lookupT_delPass [DecidableEq K] {β : Type} (d : Diff K V) (t : Table K β)
    (k : K) :
    lookupT (delPass d t) k = if delKeyB d k then none else lookupT t k := by
  induction t with
  | nil => simp [delPass, lookupT]
  | cons r t ih =>
    cases r with
    | mk k2 w =>
      by_cases hd : delKeyB d k2 <;> by_cases h1 : k = k2 <;>
        simp_all [delPass, lookupT, List.filter_cons]

theorem lookupT_insRow [DecidableEq K] (k : K) (v : V) (t : Table K V) (k1 : K) :
    lookupT (insRow k v t) k1 = if k1 = k then some v else lookupT t k1 := by
  unfold insRow
  cases hl : lookupT t k with
  | some w =>
    rw [lookupT_updRow]
    by_cases h1 : k1 = k
    · subst h1; simp [hl]
    · simp [h1]
  | none =>
    by_cases h1 : k1 = k
    · subst h1; rw [lookupT_append_none _ hl, if_pos rfl]; simp [lookupT]
    · rw [if_neg h1]
      cases hl1 : lookupT t k1 with
      | some w1 => rw [lookupT_append_some hl1]
      | none =>
        rw [lookupT_append_none _ hl1]
        simp [lookupT, h1]

theorem lookupT_insRowS [DecidableEq K] (k : K) (v : V) (t : Table K (V × Bool))
    (k1 : K) :
    lookupT (insRowS k v t) k1 =
      if k1 = k then
        some (v, match lookupT t k with | some p => p.2 | none => true)
      else lookupT t k1 := by
  unfold insRowS
  cases hl : lookupT t k with
  | some w =>
    rw [lookupT_updRowS]
    by_cases h1 : k1 = k
    · subst h1; simp [hl]
    · simp [h1]
  | none =>
    by_cases h1 : k1 = k
    · subst h1; rw [lookupT_append_none _ hl, if_pos rfl]; simp [lookupT]
    · rw [if_neg h1]
      cases hl1 : lookupT t k1 with
      | some w1 => rw [lookupT_append_some hl1]
      | none =>
        rw [lookupT_append_none _ hl1]
        simp [lookupT, h1]

theorem lookupT_stripKeep [DecidableEq K] (t : Table K (V × Bool)) (k : K) :
    lookupT (stripKeep t) k = (lookupT t k).map Prod.fst := by
  induction t with
  | nil => simp [stripKeep, lookupT]
  | cons r t ih =>
    cases r with
    | mk k2 w =>
      by_cases h1 : k = k2 <;> simp_all [stripKeep, lookupT]

theorem lookupT_filter [DecidableEq K] {β : Type} (p : K × β → Bool)
    {t : Table K β} (h : NodupKeys t) (k : K) :
    lookupT (t.filter p) k =
      match lookupT t k with
      | some w => if p (k, w) then some w else none
      | none => none := by
  induction t with
  | nil => simp [lookupT]
  | cons r t ih =>
    cases r with
    | mk k2 w =>
      have hnd : k2 ∉ t.map Prod.fst ∧ NodupKeys t := by
        simpa [NodupKeys, List.nodup_cons] using h
      by_cases h1 : k = k2
      · subst h1
        have hlt : lookupT t k = none := lookupT_eq_none_iff.mpr hnd.1
        by_cases hp : p (k, w) <;>
          simp_all [List.filter_cons, lookupT, ih hnd.2]
      · by_cases hp : p (k2, w) <;>
          simp_all [List.filter_cons, lookupT, ih hnd.2]

/-! ### NodupKeys preservation -/

theorem keys_updRow [DecidableEq K] (k : K) (v : V) (t : Table K V) :
    (updRow k v t).map Prod.fst = t.map Prod.fst := by
  induction t with
  | nil => rfl
  | cons r t ih =>
    cases r with
    | mk k2 w => by_cases h2 : k2 = k <;> simp_all [updRow]

theorem keys_updRowS [DecidableEq K] (k : K) (v : V) (t : Table K (V × Bool)) :
    (updRowS k v t).map Prod.fst = t.map Prod.fst := by
  induction t with
  | nil => rfl
  | cons r t ih =>
    cases r with
    | mk k2 w => by_cases h2 : k2 = k <;> simp_all [updRowS]

theorem nodupKeys_filter [DecidableEq K] {β : Type} (p : K × β → Bool)
    {t : Table K β} (h : NodupKeys t) : NodupKeys (t.filter p) :=
  List.Nodup.sublist (List.Sublist.map Prod.fst (List.filter_sublist t)) h

theorem nodupKeys_delPass [DecidableEq K] {β : Type} (d : Diff K V)
    {t : Table K β} (h : NodupKeys t) : NodupKeys (delPass d t) :=
  nodupKeys_filter _ h

theorem nodupKeys_updRow [DecidableEq K] (k : K) (v : V) {t : Table K V}
    (h : NodupKeys t) : NodupKeys (updRow k v t) := by
  unfold NodupKeys
  rw [keys_updRow]
  exact h

theorem nodupKeys_updRowS [DecidableEq K] (k : K) (v : V) {t : Table K (V × Bool)}
    (h : NodupKeys t) : NodupKeys (updRowS k v t) := by
  unfold NodupKeys
  rw [keys_updRowS]
  exact h

theorem nodupKeys_insRow [DecidableEq K] (k : K) (v : V) {t : Table K V}
    (h : NodupKeys t) : NodupKeys (insRow k v t) := by
  unfold insRow
  cases hl : lookupT t k with
  | some w => exact nodupKeys_updRow k v h
  | none => exact nodupKeys_append_single h hl

theorem nodupKeys_insRowS [DecidableEq K] (k : K) (v : V) {t : Table K (V × Bool)}
    (h : NodupKeys t) : NodupKeys (insRowS k v t) := by
  unfold insRowS
  cases hl : lookupT t k with
  | some w => exact nodupKeys_updRowS k v h
  | none => exact nodupKeys_append_single h hl

theorem nodupKeys_stripKeep [DecidableEq K] {t : Table K (V × Bool)}
    (h : NodupKeys t) : NodupKeys (stripKeep t) := by
  unfold NodupKeys stripKeep
  rw [List.map_map]
  exact h

/-! ### The staging invariant of `execute` -/

theorem updKeyB_iff [DecidableEq K] {d : Diff K V} {k : K} :
    updKeyB d k = true ↔ hasUpdDiff d k := by
  unfold updKeyB hasUpdDiff
  rw [List.any_eq_true]
  constructor
  · rintro ⟨c, hc, hc2⟩
    cases c with
    | ins k1 v => simp at hc2
    | del k1 => simp at hc2
    | upd k1 v =>
      simp only [decide_eq_true_eq] at hc2
      exact ⟨v, hc2 ▸ hc⟩
  · rintro ⟨v, hv⟩
    exact ⟨Change.upd k v, hv, by simp⟩

theorem lookupT_filter_some [DecidableEq K] {β : Type} (p : K × β → Bool)
    {t : Table K β} (h : NodupKeys t) {k : K} {w : β}
    (hw : lookupT t k = some w) :
    lookupT (t.filter p) k = if p (k, w) then some w else none := by
  rw [lookupT_filter p h, hw]

theorem lookupT_filter_none [DecidableEq K] {β : Type} (p : K × β → Bool)
    {t : Table K β} (h : NodupKeys t) {k : K}
    (hw : lookupT t k = none) :
    lookupT (t.filter p) k = none := by
  rw [lookupT_filter p h, hw]

theorem lookupT_applyQualFilter [DecidableEq K] (quals : List (FQual K V))
    {T : Table K (V × Bool)} (hT : NodupKeys T) (k : K) {p : V × Bool}
    (hl : lookupT T k = some p) :
    lookupT (applyQualFilter quals T) k =
      if p.2 = true ∨ evalQuals quals (k, p.1) = true then some p else none := by
  rw [applyQualFilter, lookupT_filter_some _ hT hl]
  by_cases h2 : p.2 = true <;> by_cases hq : evalQuals quals (k, p.1) = true <;>
    simp [h2, hq]

/-- The invariant relating the fully materialized table `M` and the staging
table `T` at each point of the diff chain: staging rows agree with the
materialized rows; a materialized row missing from staging fails the quals
and (unless Step A was skipped) its key is never UPDATEd by the chain;
a `keep_pk = FALSE` staging row likewise has a never-updated key. -/
def StagingInv [DecidableEq K] (chain : List (Diff K V)) (skipA : Bool)
    (Q : K × V → Bool) (M : Table K V) (T : Table K (V × Bool)) : Prop :=
  NodupKeys M ∧ NodupKeys T ∧
  (∀ k v b, lookupT T k = some (v, b) → lookupT M k = some v) ∧
  (∀ k v, lookupT M k = some v → lookupT T k = none →
    (skipA = true ∨ ¬ hasUpd chain k) ∧ Q (k, v) = false) ∧
  (∀ k v, lookupT T k = some (v, false) → (skipA = true ∨ ¬ hasUpd chain k))

theorem stagingInv_delPass [DecidableEq K] {chain : List (Diff K V)} {skipA : Bool}
    {Q : K × V → Bool} {M : Table K V} {T : Table K (V × Bool)} (d : Diff K V)
    (h : StagingInv chain skipA Q M T) :
    StagingInv chain skipA Q (delPass d M) (delPass d T) := by
  obtain ⟨hM, hT, h1, h2, h3⟩ := h
  refine ⟨nodupKeys_delPass d hM, nodupKeys_delPass d hT, ?_, ?_, ?_⟩
  · intro k v b hl
    rw [lookupT_delPass] at hl
    rw [lookupT_delPass]
    by_cases hd : delKeyB d k = true
    · rw [if_pos hd] at hl; cases hl
    · rw [if_neg hd] at hl; rw [if_neg hd]; exact h1 k v b hl
  · intro k v hm ht
    rw [lookupT_delPass] at hm ht
    by_cases hd : delKeyB d k = true
    · rw [if_pos hd] at hm; cases hm
    · rw [if_neg hd] at hm ht; exact h2 k v hm ht
  · intro k v hl
    rw [lookupT_delPass] at hl
    by_cases hd : delKeyB d k = true
    · rw [if_pos hd] at hl; cases hl
    · rw [if_neg hd] at hl; exact h3 k v hl

theorem stagingInv_updRow [DecidableEq K] {chain : List (Diff K V)} {skipA : Bool}
    {Q : K × V → Bool} {M : Table K V} {T : Table K (V × Bool)} {k0 : K} {v0 : V}
    (hup : hasUpd chain k0)
    (hQ : skipA = true → ∀ k v1 v2, Q (k, v1) = Q (k, v2))
    (h : StagingInv chain skipA Q M T) :
    StagingInv chain skipA Q (updRow k0 v0 M) (updRowS k0 v0 T) := by
  obtain ⟨hM, hT, h1, h2, h3⟩ := h
  refine ⟨nodupKeys_updRow k0 v0 hM, nodupKeys_updRowS k0 v0 hT, ?_, ?_, ?_⟩
  · intro k v b hl
    rw [lookupT_updRowS] at hl
    rw [lookupT_updRow]
    by_cases hk : k = k0
    · rw [if_pos hk] at hl ⊢
      cases hlt : lookupT T k with
      | none => rw [hlt] at hl; cases hl
      | some p =>
        rw [hlt] at hl
        simp only [Option.map_some'] at hl
        have hpe := Option.some.inj hl
        have hv : v0 = v := congrArg Prod.fst hpe
        have hm := h1 k p.1 p.2 (by rw [hlt])
        rw [hm]
        simp [hv]
    · rw [if_neg hk] at hl ⊢
      exact h1 k v b hl
  · intro k v hm ht
    rw [lookupT_updRow] at hm
    rw [lookupT_updRowS] at ht
    by_cases hk : k = k0
    · rw [if_pos hk] at hm ht
      cases hlm : lookupT M k with
      | none => rw [hlm] at hm; cases hm
      | some w =>
        rw [hlm] at hm
        simp only [Option.map_some'] at hm
        have hv : v0 = v := Option.some.inj hm
        have htn : lookupT T k = none := by
          cases hlt : lookupT T k with
          | none => rfl
          | some p => rw [hlt] at ht; cases ht
        have h2r := h2 k w hlm htn
        rcases h2r.1 with hs | hn
        · refine ⟨Or.inl hs, ?_⟩
          rw [hQ hs k v w]
          exact h2r.2
        · exact absurd (hk ▸ hup) hn
    · rw [if_neg hk] at hm ht
      exact h2 k v hm ht
  · intro k v hl
    rw [lookupT_updRowS] at hl
    by_cases hk : k = k0
    · rw [if_pos hk] at hl
      cases hlt : lookupT T k with
      | none => rw [hlt] at hl; cases hl
      | some p =>
        rw [hlt] at hl
        simp only [Option.map_some'] at hl
        have hpe := Option.some.inj hl
        have hb : p.2 = false := congrArg Prod.snd hpe
        exact h3 k p.1 (by rw [hlt, ← hb])
    · rw [if_neg hk] at hl
      exact h3 k v hl

theorem stagingInv_insRow [DecidableEq K] {chain : List (Diff K V)} {skipA : Bool}
    {Q : K × V → Bool} {M : Table K V} {T : Table K (V × Bool)} {k0 : K} {v0 : V}
    (h : StagingInv chain skipA Q M T) :
    StagingInv chain skipA Q (insRow k0 v0 M) (insRowS k0 v0 T) := by
  obtain ⟨hM, hT, h1, h2, h3⟩ := h
  refine ⟨nodupKeys_insRow k0 v0 hM, nodupKeys_insRowS k0 v0 hT, ?_, ?_, ?_⟩
  · intro k v b hl
    rw [lookupT_insRowS] at hl
    rw [lookupT_insRow]
    by_cases hk : k = k0
    · rw [if_pos hk] at hl ⊢
      have hpe := Option.some.inj hl
      exact congrArg some (congrArg Prod.fst hpe)
    · rw [if_neg hk] at hl ⊢
      exact h1 k v b hl
  · intro k v hm ht
    rw [lookupT_insRow] at hm
    rw [lookupT_insRowS] at ht
    by_cases hk : k = k0
    · rw [if_pos hk] at ht; cases ht
    · rw [if_neg hk] at hm ht
      exact h2 k v hm ht
  · intro k v hl
    rw [lookupT_insRowS] at hl
    by_cases hk : k = k0
    · subst hk
      rw [if_pos rfl] at hl
      cases hlt : lookupT T k with
      | none =>
        rw [hlt] at hl
        have hpe := Option.some.inj hl
        have hb : true = false := (Prod.ext_iff.mp hpe).2
        cases hb
      | some p =>
        rw [hlt] at hl
        have hpe := Option.some.inj hl
        have hb : p.2 = false := (Prod.ext_iff.mp hpe).2
        refine h3 k p.1 ?_
        rw [hlt, ← hb]
    · rw [if_neg hk] at hl
      exact h3 k v hl

theorem stagingInv_updPass [DecidableEq K] {chain : List (Diff K V)} {skipA : Bool}
    {Q : K × V → Bool}
    (hQ : skipA = true → ∀ k v1 v2, Q (k, v1) = Q (k, v2)) (d : Diff K V) :
    ∀ {M : Table K V} {T : Table K (V × Bool)},
      (∀ k v, Change.upd k v ∈ d → hasUpd chain k) →
      StagingInv chain skipA Q M T →
      StagingInv chain skipA Q (updPass d M) (updPassS d T) := by
  induction d with
  | nil => intro M T _ h; exact h
  | cons c d ih =>
    intro M T hd h
    have hd2 : ∀ k v, Change.upd k v ∈ d → hasUpd chain k := fun k v hm =>
      hd k v (List.mem_cons_of_mem c hm)
    match c with
    | .ins k v => exact ih hd2 h
    | .del k => exact ih hd2 h
    | .upd k v =>
      exact ih hd2 (stagingInv_updRow (hd k v (List.mem_cons_self _ _)) hQ h)

theorem stagingInv_insPass [DecidableEq K] {chain : List (Diff K V)} {skipA : Bool}
    {Q : K × V → Bool} (d : Diff K V) :
    ∀ {M : Table K V} {T : Table K (V × Bool)},
      StagingInv chain skipA Q M T →
      StagingInv chain skipA Q (insPass d M) (insPassS d T) := by
  induction d with
  | nil => intro M T h; exact h
  | cons c d ih =>
    intro M T h
    match c with
    | .ins k v => exact ih (stagingInv_insRow h)
    | .del k => exact ih h
    | .upd k v => exact ih h

theorem stagingInv_applyDiff [DecidableEq K] {chain : List (Diff K V)} {skipA : Bool}
    {Q : K × V → Bool} {M : Table K V} {T : Table K (V × Bool)}
    (hQ : skipA = true → ∀ k v1 v2, Q (k, v1) = Q (k, v2)) (d : Diff K V)
    (hd : ∀ k v, Change.upd k v ∈ d → hasUpd chain k)
    (h : StagingInv chain skipA Q M T) :
    StagingInv chain skipA Q (applyDiff d M) (applyDiffS d T) :=
  stagingInv_insPass d (stagingInv_updPass hQ d hd (stagingInv_delPass d h))

theorem stagingInv_applyQualFilter [DecidableEq K] {chain : List (Diff K V)}
    {skipA : Bool} {quals : List (FQual K V)} {M : Table K V}
    {T : Table K (V × Bool)}
    (h : StagingInv chain skipA (evalQuals quals) M T) :
    StagingInv chain skipA (evalQuals quals) M (applyQualFilter quals T) := by
  obtain ⟨hM, hT, h1, h2, h3⟩ := h
  refine ⟨hM, nodupKeys_filter _ hT, ?_, ?_, ?_⟩
  · intro k v b hl
    cases hlt : lookupT T k with
    | none =>
      rw [applyQualFilter, lookupT_filter_none _ hT hlt] at hl
      cases hl
    | some p =>
      rw [lookupT_applyQualFilter quals hT k hlt] at hl
      by_cases hc : p.2 = true ∨ evalQuals quals (k, p.1) = true
      · rw [if_pos hc] at hl
        exact h1 k v b (hlt.trans hl)
      · rw [if_neg hc] at hl
        cases hl
  · intro k v hm ht
    cases hlt : lookupT T k with
    | none => exact h2 k v hm hlt
    | some p =>
      rw [lookupT_applyQualFilter quals hT k hlt] at ht
      by_cases hc : p.2 = true ∨ evalQuals quals (k, p.1) = true
      · rw [if_pos hc] at ht
        cases ht
      · have hb : p.2 = false := by
          cases hpb : p.2
          · rfl
          · exact absurd (Or.inl hpb) hc
        have hq : evalQuals quals (k, p.1) = false := by
          cases hqb : evalQuals quals (k, p.1)
          · rfl
          · exact absurd (Or.inr hqb) hc
        have hd := h3 k p.1 (by rw [hlt, ← hb])
        have hm2 := h1 k p.1 p.2 (by rw [hlt])
        have hv : v = p.1 := by
          rw [hm] at hm2
          exact Option.some.inj hm2
        exact ⟨hd, by rw [hv]; exact hq⟩
  · intro k v hl
    cases hlt : lookupT T k with
    | none =>
      rw [applyQualFilter, lookupT_filter_none _ hT hlt] at hl
      cases hl
    | some p =>
      rw [lookupT_applyQualFilter quals hT k hlt] at hl
      by_cases hc : p.2 = true ∨ evalQuals quals (k, p.1) = true
      · rw [if_pos hc] at hl
        exact h3 k v (hlt.trans hl)
      · rw [if_neg hc] at hl
        cases hl

theorem stagingInv_stepCFold [DecidableEq K] {chain : List (Diff K V)}
    {skipA : Bool} {quals : List (FQual K V)}
    (hQ : skipA = true → ∀ k v1 v2, evalQuals quals (k, v1) = evalQuals quals (k, v2)) :
    ∀ (ds : List (Diff K V)) {M : Table K V} {T : Table K (V × Bool)},
      (∀ d ∈ ds, ∀ k v, Change.upd k v ∈ d → hasUpd chain k) →
      StagingInv chain skipA (evalQuals quals) M T →
      StagingInv chain skipA (evalQuals quals)
        (ds.foldl (fun t d => applyDiff d t) M) (stepCFold quals ds T) := by
  intro ds
  induction ds with
  | nil => intro M T _ h; exact h
  | cons d ds ih =>
    intro M T hds h
    have hd1 : ∀ k v, Change.upd k v ∈ d → hasUpd chain k :=
      hds d (List.mem_cons_self _ _)
    have hds2 : ∀ d2 ∈ ds, ∀ k v, Change.upd k v ∈ d2 → hasUpd chain k :=
      fun d2 hd2 => hds d2 (List.mem_cons_of_mem d hd2)
    have h4 := stagingInv_applyDiff hQ d hd1 h
    by_cases he : quals.isEmpty
    · have : stepCFold quals (d :: ds) T = stepCFold quals ds (applyDiffS d T) := by
        simp [stepCFold, he]
      rw [this]
      exact ih hds2 h4
    · have : stepCFold quals (d :: ds) T =
          stepCFold quals ds (applyQualFilter quals (applyDiffS d T)) := by
        simp [stepCFold, he]
      rw [this]
      exact ih hds2 (stagingInv_applyQualFilter h4)

/-! ### Characterizations of Step A and Step B -/

theorem lookupT_stepADiff_mono [DecidableEq K] (S : Table K V) (d : Diff K V) :
    ∀ {t : Table K (V × Bool)} {k : K} {p : V × Bool},
      lookupT t k = some p → lookupT (stepADiff S d t) k = some p := by
  induction S with
  | nil => intro t k p h; exact h
  | cons r S ih =>
    intro t k p h
    have hstep : stepADiff (r :: S) d t = stepADiff S d
        (if updKeyB d r.1 && (lookupT t r.1).isNone then t ++ [(r.1, (r.2, true))]
         else t) := rfl
    rw [hstep]
    by_cases hc : (updKeyB d r.1 && (lookupT t r.1).isNone) = true
    · rw [if_pos hc]
      exact ih (lookupT_append_some h)
    · rw [if_neg hc]
      exact ih h

theorem lookupT_stepADiff_noUpd [DecidableEq K] (S : Table K V) (d : Diff K V) :
    ∀ {t : Table K (V × Bool)} {k : K}, updKeyB d k = false →
      lookupT (stepADiff S d t) k = lookupT t k := by
  induction S with
  | nil => intro t k _; rfl
  | cons r S ih =>
    intro t k hu
    cases r with
    | mk rk rv =>
      have hstep : stepADiff ((rk, rv) :: S) d t = stepADiff S d
          (if updKeyB d rk && (lookupT t rk).isNone then t ++ [(rk, (rv, true))]
           else t) := rfl
      rw [hstep]
      by_cases hc : (updKeyB d rk && (lookupT t rk).isNone) = true
      · rw [if_pos hc, ih hu]
        have hk : k ≠ rk := by
          intro he
          subst he
          rw [Bool.and_eq_true] at hc
          rw [hu] at hc
          exact absurd hc.1 (by simp)
        cases hlt : lookupT t k with
        | some q => exact lookupT_append_some hlt
        | none =>
          rw [lookupT_append_none _ hlt]
          simp [lookupT, hk]
      · rw [if_neg hc]
        exact ih hu

theorem lookupT_stepADiff_src [DecidableEq K] (S : Table K V) (d : Diff K V) :
    ∀ {t : Table K (V × Bool)} {k : K} {p : V × Bool},
      lookupT (stepADiff S d t) k = some p →
      lookupT t k = some p ∨ (∃ v, p = (v, true) ∧ lookupT S k = some v) := by
  induction S with
  | nil => intro t k p h; exact Or.inl h
  | cons r S ih =>
    intro t k p h
    cases r with
    | mk rk rv =>
      have hstep : stepADiff ((rk, rv) :: S) d t = stepADiff S d
          (if updKeyB d rk && (lookupT t rk).isNone then t ++ [(rk, (rv, true))]
           else t) := rfl
      rw [hstep] at h
      by_cases hc : (updKeyB d rk && (lookupT t rk).isNone) = true
      · rw [if_pos hc] at h
        by_cases hk : k = rk
        · subst hk
          have hn : lookupT t k = none := by
            rw [Bool.and_eq_true] at hc
            exact Option.isNone_iff_eq_none.mp hc.2
          have happ : lookupT (t ++ [(k, (rv, true))]) k = some (rv, true) := by
            rw [lookupT_append_none _ hn]
            simp [lookupT]
          have hfin := lookupT_stepADiff_mono S d happ
          rw [h] at hfin
          exact Or.inr ⟨rv, Option.some.inj hfin, by simp [lookupT]⟩
        · have heq : lookupT (t ++ [(rk, (rv, true))]) k = lookupT t k := by
            cases hlt : lookupT t k with
            | some q => exact lookupT_append_some hlt
            | none =>
              rw [lookupT_append_none _ hlt]
              simp [lookupT, hk]
          rcases ih h with hin | ⟨v, hp, hS⟩
          · rw [heq] at hin
            exact Or.inl hin
          · refine Or.inr ⟨v, hp, ?_⟩
            rw [lookupT, if_neg hk]
            exact hS
      · rw [if_neg hc] at h
        by_cases hk : k = rk
        · subst hk
          rw [Bool.and_eq_true] at hc
          rcases not_and_or.mp hc with hu | hn
          · have hu2 : updKeyB d k = false := by
              cases hub : updKeyB d k
              · rfl
              · exact absurd hub hu
            rw [lookupT_stepADiff_noUpd S d hu2] at h
            exact Or.inl h
          · cases hlt : lookupT t k with
            | none =>
              rw [hlt] at hn
              exact absurd rfl hn
            | some q =>
              have hfin := lookupT_stepADiff_mono S d hlt
              rw [h] at hfin
              exact Or.inl (congrArg some (Option.some.inj hfin).symm)
        · rcases ih h with hin | ⟨v, hp, hS⟩
          · exact Or.inl hin
          · refine Or.inr ⟨v, hp, ?_⟩
            rw [lookupT, if_neg hk]
            exact hS

theorem lookupT_stepADiff_ne [DecidableEq K] (S : Table K V) (d : Diff K V) :
    ∀ {t : Table K (V × Bool)} {k : K} {v : V},
      updKeyB d k = true → lookupT S k = some v →
      lookupT (stepADiff S d t) k ≠ none := by
  induction S with
  | nil => intro t k v _ h; cases h
  | cons r S ih =>
    intro t k v hu hS
    cases r with
    | mk rk rv =>
      have hstep : stepADiff ((rk, rv) :: S) d t = stepADiff S d
          (if updKeyB d rk && (lookupT t rk).isNone then t ++ [(rk, (rv, true))]
           else t) := rfl
      rw [hstep]
      by_cases hk : k = rk
      · subst hk
        by_cases hn : lookupT t k = none
        · have hc : (updKeyB d k && (lookupT t k).isNone) = true := by
            rw [hu, hn]
            rfl
          rw [if_pos hc]
          have happ : lookupT (t ++ [(k, (rv, true))]) k = some (rv, true) := by
            rw [lookupT_append_none _ hn]
            simp [lookupT]
          rw [lookupT_stepADiff_mono S d happ]
          simp
        · rcases Option.ne_none_iff_exists'.mp hn with ⟨q, hq⟩
          by_cases hc : (updKeyB d k && (lookupT t k).isNone) = true
          · rw [Bool.and_eq_true, hq] at hc
            simp at hc
          · rw [if_neg hc, lookupT_stepADiff_mono S d hq]
            simp
      · have hS2 : lookupT S k = some v := by
          rw [lookupT, if_neg hk] at hS
          exact hS
        by_cases hc : (updKeyB d rk && (lookupT t rk).isNone) = true
        · rw [if_pos hc]
          exact ih hu hS2
        · rw [if_neg hc]
          exact ih hu hS2

theorem lookupT_stepAFold_ne [DecidableEq K] (S : Table K V) :
    ∀ (chain : List (Diff K V)) (t : Table K (V × Bool)) (k : K) (v : V),
      lookupT S k = some v →
      (hasUpd chain k ∨ lookupT t k ≠ none) →
      lookupT (chain.foldl (fun t d => stepADiff S d t) t) k ≠ none := by
  intro chain
  induction chain with
  | nil =>
    intro t k v hS h
    rcases h with h | h
    · rcases h with ⟨d, hd, _⟩
      exact absurd hd (List.not_mem_nil d)
    · exact h
  | cons d rest ih =>
    intro t k v hS h
    show lookupT (rest.foldl (fun t d => stepADiff S d t) (stepADiff S d t)) k ≠ none
    rcases h with h | h
    · rcases h with ⟨d2, hd2, hupd⟩
      rcases List.mem_cons.mp hd2 with rfl | hd2r
      · exact ih (stepADiff S d2 t) k v hS
          (Or.inr (lookupT_stepADiff_ne S d2 (updKeyB_iff.mpr hupd) hS))
      · exact ih _ k v hS (Or.inl ⟨d2, hd2r, hupd⟩)
    · refine ih _ k v hS (Or.inr ?_)
      rcases Option.ne_none_iff_exists'.mp h with ⟨q, hq⟩
      rw [lookupT_stepADiff_mono S d hq]
      simp

theorem lookupT_stepA_ne [DecidableEq K] {S : Table K V} {chain : List (Diff K V)}
    {k : K} {v : V} (hS : lookupT S k = some v) (h : hasUpd chain k) :
    lookupT (stepA S chain) k ≠ none :=
  lookupT_stepAFold_ne S chain [] k v hS (Or.inl h)

theorem lookupT_stepA_src [DecidableEq K] {S : Table K V} {chain : List (Diff K V)}
    {k : K} {p : V × Bool} (h : lookupT (stepA S chain) k = some p) :
    ∃ v, p = (v, true) ∧ lookupT S k = some v := by
  suffices hgen : ∀ (ch : List (Diff K V)) (t : Table K (V × Bool)),
      (∀ p2, lookupT t k = some p2 → ∃ v, p2 = (v, true) ∧ lookupT S k = some v) →
      ∀ p2, lookupT (ch.foldl (fun t d => stepADiff S d t) t) k = some p2 →
      ∃ v, p2 = (v, true) ∧ lookupT S k = some v by
    exact hgen chain [] (by intro p2 h2; cases h2) p h
  intro ch
  induction ch with
  | nil =>
    intro t ht p2 h2
    exact ht p2 h2
  | cons d rest ih =>
    intro t ht p2 h2
    refine ih (stepADiff S d t) ?_ p2 h2
    intro p3 h3
    rcases lookupT_stepADiff_src S d h3 with hin | ⟨v, hp, hS⟩
    · exact ht p3 hin
    · exact ⟨v, hp, hS⟩

theorem nodupKeys_stepADiff [DecidableEq K] (S : Table K V) (d : Diff K V) :
    ∀ {t : Table K (V × Bool)}, NodupKeys t → NodupKeys (stepADiff S d t) := by
  induction S with
  | nil => intro t h; exact h
  | cons r S ih =>
    intro t h
    have hstep : stepADiff (r :: S) d t = stepADiff S d
        (if updKeyB d r.1 && (lookupT t r.1).isNone then t ++ [(r.1, (r.2, true))]
         else t) := rfl
    rw [hstep]
    by_cases hc : (updKeyB d r.1 && (lookupT t r.1).isNone) = true
    · rw [if_pos hc]
      refine ih ?_
      rw [Bool.and_eq_true] at hc
      exact nodupKeys_append_single h (Option.isNone_iff_eq_none.mp hc.2)
    · rw [if_neg hc]
      exact ih h

theorem nodupKeys_stepA [DecidableEq K] (S : Table K V) (chain : List (Diff K V)) :
    NodupKeys (stepA S chain) := by
  suffices hgen : ∀ (ch : List (Diff K V)) (t : Table K (V × Bool)), NodupKeys t →
      NodupKeys (ch.foldl (fun t d => stepADiff S d t) t) by
    exact hgen chain [] (by simp [NodupKeys])
  intro ch
  induction ch with
  | nil => intro t h; exact h
  | cons d rest ih =>
    intro t h
    exact ih _ (nodupKeys_stepADiff S d h)

theorem lookupT_stepB_mono [DecidableEq K] (S : Table K V)
    (quals : List (FQual K V)) :
    ∀ {t : Table K (V × Bool)} {k : K} {p : V × Bool},
      lookupT t k = some p → lookupT (stepB S quals t) k = some p := by
  induction S with
  | nil => intro t k p h; exact h
  | cons r S ih =>
    intro t k p h
    have hstep : stepB (r :: S) quals t = stepB S quals
        (if evalQuals quals r && (lookupT t r.1).isNone then t ++ [(r.1, (r.2, false))]
         else t) := rfl
    rw [hstep]
    by_cases hc : (evalQuals quals r && (lookupT t r.1).isNone) = true
    · rw [if_pos hc]
      exact ih (lookupT_append_some h)
    · rw [if_neg hc]
      exact ih h

theorem nodupKeys_stepB [DecidableEq K] (S : Table K V)
    (quals : List (FQual K V)) :
    ∀ {t : Table K (V × Bool)}, NodupKeys t → NodupKeys (stepB S quals t) := by
  induction S with
  | nil => intro t h; exact h
  | cons r S ih =>
    intro t h
    have hstep : stepB (r :: S) quals t = stepB S quals
        (if evalQuals quals r && (lookupT t r.1).isNone then t ++ [(r.1, (r.2, false))]
         else t) := rfl
    rw [hstep]
    by_cases hc : (evalQuals quals r && (lookupT t r.1).isNone) = true
    · rw [if_pos hc]
      refine ih ?_
      rw [Bool.and_eq_true] at hc
      exact nodupKeys_append_single h (Option.isNone_iff_eq_none.mp hc.2)
    · rw [if_neg hc]
      exact ih h

theorem lookupT_stepB_src [DecidableEq K] (quals : List (FQual K V)) :
    ∀ {S : Table K V}, NodupKeys S →
    ∀ {t : Table K (V × Bool)} {k : K} {p : V × Bool},
      lookupT (stepB S quals t) k = some p →
      lookupT t k = some p ∨
        (∃ v, p = (v, false) ∧ lookupT S k = some v ∧
          evalQuals quals (k, v) = true) := by
  intro S
  induction S with
  | nil => intro _ t k p h; exact Or.inl h
  | cons r S ih =>
    intro hS t k p h
    cases r with
    | mk rk rv =>
      have hnd : rk ∉ S.map Prod.fst ∧ NodupKeys S := by
        simpa [NodupKeys, List.nodup_cons] using hS
      have hstep : stepB ((rk, rv) :: S) quals t = stepB S quals
          (if evalQuals quals (rk, rv) && (lookupT t rk).isNone then
            t ++ [(rk, (rv, false))]
           else t) := rfl
      rw [hstep] at h
      by_cases hc : (evalQuals quals (rk, rv) && (lookupT t rk).isNone) = true
      · rw [if_pos hc] at h
        rw [Bool.and_eq_true] at hc
        by_cases hk : k = rk
        · subst hk
          have hn : lookupT t k = none := Option.isNone_iff_eq_none.mp hc.2
          have happ : lookupT (t ++ [(k, (rv, false))]) k = some (rv, false) := by
            rw [lookupT_append_none _ hn]
            simp [lookupT]
          have hfin := lookupT_stepB_mono S quals happ
          rw [h] at hfin
          exact Or.inr ⟨rv, Option.some.inj hfin, by simp [lookupT], hc.1⟩
        · have heq : lookupT (t ++ [(rk, (rv, false))]) k = lookupT t k := by
            cases hlt : lookupT t k with
            | some q => exact lookupT_append_some hlt
            | none =>
              rw [lookupT_append_none _ hlt]
              simp [lookupT, hk]
          rcases ih hnd.2 h with hin | ⟨v, hp, hS2, hq⟩
          · rw [heq] at hin
            exact Or.inl hin
          · refine Or.inr ⟨v, hp, ?_, hq⟩
            rw [lookupT, if_neg hk]
            exact hS2
      · rw [if_neg hc] at h
        by_cases hk : k = rk
        · subst hk
          rcases ih hnd.2 h with hin | ⟨v, hp, hS2, hq⟩
          · exact Or.inl hin
          · have hnone : lookupT S k = none := lookupT_eq_none_iff.mpr hnd.1
            rw [hnone] at hS2
            cases hS2
        · rcases ih hnd.2 h with hin | ⟨v, hp, hS2, hq⟩
          · exact Or.inl hin
          · refine Or.inr ⟨v, hp, ?_, hq⟩
            rw [lookupT, if_neg hk]
            exact hS2

theorem lookupT_stepB_ne [DecidableEq K] (quals : List (FQual K V)) :
    ∀ (S : Table K V) {t : Table K (V × Bool)} {k : K} {v : V},
      lookupT S k = some v → evalQuals quals (k, v) = true →
      lookupT (stepB S quals t) k ≠ none := by
  intro S
  induction S with
  | nil => intro t k v h _; cases h
  | cons r S ih =>
    intro t k v hS hq
    cases r with
    | mk rk rv =>
      have hstep : stepB ((rk, rv) :: S) quals t = stepB S quals
          (if evalQuals quals (rk, rv) && (lookupT t rk).isNone then
            t ++ [(rk, (rv, false))]
           else t) := rfl
      rw [hstep]
      by_cases hk : k = rk
      · subst hk
        have hv : rv = v := by
          rw [lookupT, if_pos rfl] at hS
          exact Option.some.inj hS
        subst hv
        by_cases hn : lookupT t k = none
        · have hc : (evalQuals quals (k, rv) && (lookupT t k).isNone) = true := by
            rw [hq, hn]
            rfl
          rw [if_pos hc]
          have happ : lookupT (t ++ [(k, (rv, false))]) k = some (rv, false) := by
            rw [lookupT_append_none _ hn]
            simp [lookupT]
          rw [lookupT_stepB_mono S quals happ]
          simp
        · rcases Option.ne_none_iff_exists'.mp hn with ⟨q, hqq⟩
          by_cases hc : (evalQuals quals (k, rv) && (lookupT t k).isNone) = true
          · rw [Bool.and_eq_true, hqq] at hc
            simp at hc
          · rw [if_neg hc, lookupT_stepB_mono S quals hqq]
            simp
      · have hS2 : lookupT S k = some v := by
          rw [lookupT, if_neg hk] at hS
          exact hS
        by_cases hc : (evalQuals quals (rk, rv) && (lookupT t rk).isNone) = true
        · rw [if_pos hc]
          exact ih hS2 hq
        · rw [if_neg hc]
          exact ih hS2 hq

theorem stagingInv_base [DecidableEq K] (S : Table K V) (chain : List (Diff K V))
    (quals : List (FQual K V)) (hS : NodupKeys S) :
    StagingInv chain (pkOnlyQuals quals) (evalQuals quals) S
      (stepB S quals (if pkOnlyQuals quals then [] else stepA S chain)) := by
  have ht0src : ∀ (k : K) (p : V × Bool),
      lookupT (if pkOnlyQuals quals then [] else stepA S chain) k = some p →
      ∃ v, p = (v, true) ∧ lookupT S k = some v := by
    intro k p h
    by_cases hpk : pkOnlyQuals quals = true
    · rw [if_pos hpk] at h
      cases h
    · rw [if_neg hpk] at h
      exact lookupT_stepA_src h
  have ht0ne : pkOnlyQuals quals = false → ∀ (k : K) (v : V), hasUpd chain k →
      lookupT S k = some v →
      lookupT (if pkOnlyQuals quals then [] else stepA S chain) k ≠ none := by
    intro hpk k v hu hSk
    have hne : ¬ pkOnlyQuals quals = true := by rw [hpk]; simp
    rw [if_neg hne]
    exact lookupT_stepA_ne hSk hu
  have ht0nodup : NodupKeys (if pkOnlyQuals quals then [] else stepA S chain) := by
    by_cases hpk : pkOnlyQuals quals = true
    · rw [if_pos hpk]
      simp [NodupKeys]
    · rw [if_neg hpk]
      exact nodupKeys_stepA S chain
  refine ⟨hS, nodupKeys_stepB S quals ht0nodup, ?_, ?_, ?_⟩
  · intro k v b hl
    rcases lookupT_stepB_src quals hS hl with hin | ⟨v2, hp, hS2, _⟩
    · rcases ht0src k (v, b) hin with ⟨v2, hpe, hS2⟩
      have hv : v = v2 := congrArg Prod.fst hpe
      rw [hv]
      exact hS2
    · have hv : v = v2 := congrArg Prod.fst hp
      rw [hv]
      exact hS2
  · intro k v hm ht
    constructor
    · by_cases hpk : pkOnlyQuals quals = true
      · exact Or.inl hpk
      · refine Or.inr ?_
        intro hu
        have hpk2 : pkOnlyQuals quals = false := by
          cases hq : pkOnlyQuals quals
          · rfl
          · exact absurd hq hpk
        by_cases hn : lookupT (if pkOnlyQuals quals then [] else stepA S chain) k = none
        · exact ht0ne hpk2 k v hu hm hn
        · rcases Option.ne_none_iff_exists'.mp hn with ⟨q, hq⟩
          rw [lookupT_stepB_mono S quals hq] at ht
          cases ht
    · by_cases hq : evalQuals quals (k, v) = true
      · exact absurd ht (lookupT_stepB_ne quals S hm hq)
      · cases hqb : evalQuals quals (k, v)
        · rfl
        · exact absurd hqb hq
  · intro k v hl
    rcases lookupT_stepB_src quals hS hl with hin | ⟨v2, hp, hS2, hq⟩
    · rcases ht0src k (v, false) hin with ⟨v2, hpe, _⟩
      have hb : false = true := congrArg Prod.snd hpe
      cases hb
    · by_cases hpk : pkOnlyQuals quals = true
      · exact Or.inl hpk
      · refine Or.inr ?_
        intro hu
        have hpk2 : pkOnlyQuals quals = false := by
          cases hqq : pkOnlyQuals quals
          · rfl
          · exact absurd hqq hpk
        have hv : v = v2 := congrArg Prod.fst hp
        by_cases hn : lookupT (if pkOnlyQuals quals then [] else stepA S chain) k = none
        · exact ht0ne hpk2 k v2 hu (hv ▸ hS2) hn
        · rcases Option.ne_none_iff_exists'.mp hn with ⟨q, hqt⟩
          rcases ht0src k q hqt with ⟨w, hqe, _⟩
          have hfin := lookupT_stepB_mono S quals hqt
          rw [hl] at hfin
          have : (v, false) = q := Option.some.inj hfin
          rw [← this] at hqe
          have hb : false = true := congrArg Prod.snd hqe
          cases hb

theorem pkOnly_key_invariant {quals : List (FQual K V)}
    (h : pkOnlyQuals quals = true) (k : K) (v1 v2 : V) :
    evalQuals quals (k, v1) = evalQuals quals (k, v2) := by
  induction quals with
  | nil => rfl
  | cons q rest ih =>
    rw [pkOnlyQuals, List.all_cons, Bool.and_eq_true] at h
    have ih2 : evalQuals rest (k, v1) = evalQuals rest (k, v2) := ih h.2
    cases q with
    | keyQ p =>
      simp only [evalQuals, List.all_cons, evalQual] at ih2 ⊢
      rw [ih2]
    | valQ p =>
      exact absurd h.1 (by simp [isKeyQual])

theorem nodup_of_nodupKeys {β : Type} {t : Table K β} (h : NodupKeys t) :
    t.Nodup :=
  List.Nodup.of_map Prod.fst h

theorem perm_filter_of_stagingInv [DecidableEq K] {chain : List (Diff K V)}
    {skipA : Bool} {quals : List (FQual K V)} {M : Table K V}
    {T : Table K (V × Bool)}
    (h : StagingInv chain skipA (evalQuals quals) M T) :
    List.Perm ((stripKeep T).filter (evalQuals quals))
      (M.filter (evalQuals quals)) := by
  obtain ⟨hM, hT, h1, h2, h3⟩ := h
  have hTs := nodupKeys_stripKeep hT
  rw [List.perm_ext_iff_of_nodup
    (List.Nodup.filter _ (nodup_of_nodupKeys hTs))
    (List.Nodup.filter _ (nodup_of_nodupKeys hM))]
  intro r
  cases r with
  | mk k v =>
    simp only [List.mem_filter]
    constructor
    · rintro ⟨hmem, hq⟩
      refine ⟨?_, hq⟩
      rw [mem_iff_lookupT hTs, lookupT_stripKeep] at hmem
      cases hlt : lookupT T k with
      | none =>
        rw [hlt] at hmem
        cases hmem
      | some p =>
        rw [hlt] at hmem
        have hv : p.1 = v := by simpa using hmem
        have hMk := h1 k p.1 p.2 (by rw [hlt])
        rw [mem_iff_lookupT hM, ← hv]
        exact hMk
    · rintro ⟨hmem, hq⟩
      refine ⟨?_, hq⟩
      rw [mem_iff_lookupT hM] at hmem
      rw [mem_iff_lookupT hTs, lookupT_stripKeep]
      cases hlt : lookupT T k with
      | none =>
        have hfa := (h2 k v hmem hlt).2
        rw [hq] at hfa
        cases hfa
      | some p =>
        have hMk := h1 k p.1 p.2 (by rw [hlt])
        rw [hmem] at hMk
        have hv : v = p.1 := Option.some.inj hMk
        simp [hv]

theorem execute_filter_perm [DecidableEq K] (S : Table K V)
    (chain : List (Diff K V)) (quals : List (FQual K V)) (hS : NodupKeys S) :
    List.Perm ((execute S chain quals).filter (evalQuals quals))
      ((materialize S chain).filter (evalQuals quals)) := by
  match chain with
  | [] => exact List.Perm.refl _
  | d :: ds =>
    have hQ : pkOnlyQuals quals = true →
        ∀ k v1 v2, evalQuals quals (k, v1) = evalQuals quals (k, v2) :=
      fun h k v1 v2 => pkOnly_key_invariant h k v1 v2
    have hbase := stagingInv_base S (d :: ds) quals hS
    have hds : ∀ d2 ∈ (d :: ds).dropLast, ∀ k v, Change.upd k v ∈ d2 →
        hasUpd (d :: ds) k := by
      intro d2 hd2 k v hm
      exact ⟨d2, (List.dropLast_sublist (d :: ds)).subset hd2, v, hm⟩
    have hloop := stagingInv_stepCFold hQ (d :: ds).dropLast hds hbase
    have hlast : ∀ k v,
        Change.upd k v ∈ (d :: ds).getLast (List.cons_ne_nil d ds) →
        hasUpd (d :: ds) k := by
      intro k v hm
      exact ⟨_, List.getLast_mem (List.cons_ne_nil d ds), v, hm⟩
    have hfin := stagingInv_applyDiff hQ _ hlast hloop
    have hM : applyDiff ((d :: ds).getLast (List.cons_ne_nil d ds))
        (((d :: ds).dropLast).foldl (fun t d => applyDiff d t) S) =
        materialize S (d :: ds) := by
      conv_rhs => rw [materialize,
        ← List.dropLast_append_getLast (List.cons_ne_nil d ds)]
      rw [List.foldl_append]
      rfl
    rw [hM] at hfin
    exact perm_filter_of_stagingInv hfin

/-- C1: layered query soundness.  For every snapshot table (with unique
change keys), diff chain, conjunction of pushed-down quals and column
projection, the multiset of rows produced by
`QueryingForeignDataWrapper.execute` — after the upstream executor
re-applies the quals — equals the multiset produced by selecting the
projected columns from the fully materialized table (the snapshot with all
diffs applied in chain order) filtered by the quals. -/
theorem layered_query_soundness [DecidableEq K] {ρ : Type} (S : Table K V)
    (chain : List (Diff K V)) (quals : List (FQual K V)) (proj : K × V → ρ)
    (hS : NodupKeys S) :
    List.Perm (((execute S chain quals).filter (evalQuals quals)).map proj)
      (((materialize S chain).filter (evalQuals quals)).map proj) :=
  List.Perm.map proj (execute_filter_perm S chain quals hS)

/-- Witness for C1 at a concrete instance: an UPDATE shifts a row into the
predicate and the chain has length 2, so Step A, Step C and the final
unfiltered diff application are all exercised. -/
theorem layered_query_soundness_witness :
    NodupKeys [((1 : Nat), (0 : Nat)), (2, 1), (3, 2)] ∧
    List.Perm
      (((execute [((1 : Nat), (0 : Nat)), (2, 1), (3, 2)]
          [[Change.upd 3 0], [Change.del 2]]
          [FQual.valQ (fun v => v == 0)]).filter
            (evalQuals [FQual.valQ (fun v => v == 0)])).map (fun r => r.1))
      (((materialize [((1 : Nat), (0 : Nat)), (2, 1), (3, 2)]
          [[Change.upd 3 0], [Change.del 2]]).filter
            (evalQuals [FQual.valQ (fun v => v == 0)])).map (fun r => r.1)) :=
  ⟨by decide, layered_query_soundness _ _ _ _ (by decide)⟩

/-- C2 counterexample: on the empty diff chain, `execute` returns
`_run_select_from_staging(SPLITGRAPH_META_SCHEMA, snap, columns)`, whose
query is `SELECT cols FROM snap` with NO WHERE clause (the quals are never
attached to the fast-path statement), so the emitted stream contains a row
violating the pushed-down quals and differs from
`SELECT cols FROM S WHERE Q`. -/
theorem fast_path_counterexample :
    execute [((1 : Nat), (5 : Nat))] [] [FQual.valQ (fun v => v == 0)] =
      [(1, 5)] ∧
    ([((1 : Nat), (5 : Nat))].filter
      (evalQuals [FQual.valQ (fun v => v == 0)])) = [] ∧
    execute [((1 : Nat), (5 : Nat))] [] [FQual.valQ (fun v => v == 0)] ≠
      [((1 : Nat), (5 : Nat))].filter
        (evalQuals [FQual.valQ (fun v => v == 0)]) :=
  ⟨by decide, by decide, by decide⟩

/-- C2 amended: on the empty diff chain `execute` issues
`SELECT cols FROM S` WITHOUT the pushed-down quals and streams every
snapshot row; once the upstream executor re-applies the quals the result
equals `SELECT cols FROM S WHERE Q`. -/
theorem fast_path_no_quals [DecidableEq K] {ρ : Type} (S : Table K V)
    (quals : List (FQual K V)) (proj : K × V → ρ) :
    execute S [] quals = S ∧
    ((execute S [] quals).filter (evalQuals quals)).map proj =
      (S.filter (evalQuals quals)).map proj :=
  ⟨rfl, rfl⟩

/-- C4: mid-chain filtering invariant.  (a) `_apply_qual_filter` deletes
exactly the staging rows with `sg_meta_keep_pk = FALSE` that do not satisfy
the quals; (b) rows with `sg_meta_keep_pk = TRUE` are never deleted by this
filter; (c) when quals are present, Step C applies the filter after every
diff of the loop, and (d) `execute` applies the final diff with no qual
filter afterwards. -/
theorem mid_chain_filter_invariant [DecidableEq K] (S : Table K V)
    (quals : List (FQual K V)) (d : Diff K V) (ds : List (Diff K V))
    (hq : quals ≠ []) :
    (∀ (T : Table K (V × Bool)) (r : K × (V × Bool)),
      r ∈ applyQualFilter quals T ↔
        r ∈ T ∧ (r.2.2 = true ∨ evalQuals quals (r.1, r.2.1) = true)) ∧
    (∀ (T : Table K (V × Bool)) (r : K × (V × Bool)),
      r ∈ T → r.2.2 = true → r ∈ applyQualFilter quals T) ∧
    (stepCFold quals ds = fun T =>
      ds.foldl (fun t d2 => applyQualFilter quals (applyDiffS d2 t)) T) ∧
    (execute S (d :: ds) quals = stripKeep (applyDiffS
        ((d :: ds).getLast (List.cons_ne_nil d ds))
        (stepCFold quals (d :: ds).dropLast
          (stepB S quals
            (if pkOnlyQuals quals then [] else stepA S (d :: ds)))))) := by
  have he : quals.isEmpty = false := by
    cases quals with
    | nil => exact absurd rfl hq
    | cons q rest => rfl
  refine ⟨?_, ?_, ?_, rfl⟩
  · intro T r
    rw [applyQualFilter, List.mem_filter]
    refine and_congr_right fun _ => ?_
    cases hb : r.2.2 <;> cases hev : evalQuals quals (r.1, r.2.1) <;>
      simp [hb, hev]
  · intro T r hr hk
    rw [applyQualFilter, List.mem_filter]
    refine ⟨hr, ?_⟩
    simp [hk]
  · funext T
    induction ds generalizing T with
    | nil => rfl
    | cons d2 rest ih =>
      have hne : ¬ quals.isEmpty = true := by
        rw [he]
        simp
      have hstep : stepCFold quals (d2 :: rest) T =
          stepCFold quals rest (applyQualFilter quals (applyDiffS d2 T)) := by
        show stepCFold quals rest (if quals.isEmpty then applyDiffS d2 T
          else applyQualFilter quals (applyDiffS d2 T)) = _
        rw [if_neg hne]
      rw [hstep, ih]
      rfl

/-- Witness for C4 at a concrete instance. -/
theorem mid_chain_filter_invariant_witness :
    (([FQual.valQ (fun v : Nat => v == 0)] : List (FQual Nat Nat)) ≠ []) ∧
    (∀ (T : Table Nat (Nat × Bool)) (r : Nat × (Nat × Bool)),
      r ∈ applyQualFilter [FQual.valQ (fun v : Nat => v == 0)] T ↔
        r ∈ T ∧ (r.2.2 = true ∨
          evalQuals [FQual.valQ (fun v : Nat => v == 0)] (r.1, r.2.1) = true)) :=
  ⟨List.cons_ne_nil _ _,
    (mid_chain_filter_invariant [((1 : Nat), (0 : Nat))]
      [FQual.valQ (fun v : Nat => v == 0)] [Change.del 2] []
      (List.cons_ne_nil _ _)).1⟩

/-! ### Multicorn quals at the SQL level (`_quals_to_postgres`, Step-A skip) -/

/-- A Multicorn qual as received by `execute`: a scalar comparison or a
list-valued ANY/ALL comparison. -/
inductive MulticornQual
  | scalar (field : String) (op : String) (value : String)
  | list (field : String) (op : String) (isAny : Bool) (values : List String)
deriving DecidableEq

/-- `qual.field_name`. -/
def field_name : MulticornQual → String
  | .scalar f _ _ => f
  | .list f _ _ _ => f

/-- psycopg2 `Identifier`: double-quote the name, doubling embedded
quotes. -/
def quoteIdent (s : String) : String :=
  "\"" ++ String.mk (s.data.foldr
    (fun c acc => if c = '"' then '"' :: '"' :: acc else c :: acc) []) ++ "\""

/-- `_qual_to_pg` (fdw_checkout.py lines 40-49): one qual becomes an SQL
fragment plus the list of values to be mogrified into it.  List quals build
`op ANY(ARRAY[%s,…])` or `op ALL(ARRAY[%s,…])` with one placeholder per
value; scalar quals build `op %s`. -/
def _qual_to_pg : MulticornQual → String × List String
  | .scalar f op v => (quoteIdent f ++ (" " ++ (op ++ " %s")), [v])
  | .list f op isAny vs =>
      (quoteIdent f ++ (" " ++ ((op ++ " " ++ (if isAny then "ANY" else "ALL")) ++
        ("(ARRAY[" ++ String.intercalate "," (vs.map (fun _ => "%s")) ++ "])"))),
       vs)

/-- `_quals_to_postgres` (fdw_checkout.py lines 37-58): loop over the quals,
collecting the fragments into `sql_objs` and extending `vals`; the fragments
are joined with " AND ". -/
def _quals_to_postgres (quals : List MulticornQual) : String × List String :=
  let acc := quals.foldl (fun acc q =>
    let sv := _qual_to_pg q
    (acc.1 ++ [sv.1], acc.2 ++ sv.2)) ([], [])
  (String.intercalate " AND " acc.1, acc.2)

/-- The per-qual SQL fragment exactly as the claim words it. -/
def claimFragment : MulticornQual → String
  | .scalar f op _ => quoteIdent f ++ " " ++ op ++ " %s"
  | .list f op isAny vs =>
      quoteIdent f ++ " " ++ op ++ " " ++ (if isAny then "ANY" else "ALL") ++
        "(ARRAY[" ++ String.intercalate "," (List.replicate vs.length "%s") ++
        "])"

/-- The bound values of one qual as the claim words them. -/
def claimBoundValues : MulticornQual → List String
  | .scalar _ _ v => [v]
  | .list _ _ _ vs => vs

theorem qual_to_pg_fragment (q : MulticornQual) :
    (_qual_to_pg q).1 = claimFragment q := by
  cases q with
  | scalar f op v =>
    simp [_qual_to_pg, claimFragment, String.append_assoc]
  | list f op isAny vs =>
    simp [_qual_to_pg, claimFragment, String.append_assoc, List.map_const']

theorem qual_to_pg_values (q : MulticornQual) :
    (_qual_to_pg q).2 = claimBoundValues q := by
  cases q <;> rfl

/-- C6: qual translation: for every list of quals, `_quals_to_postgres`
returns the per-qual SQL fragments joined by " AND " together with the bound
values concatenated in qual order; a scalar qual `(field, op, value)` yields
the fragment `field op %s` with the single bound value, and a list qual
yields `field op ANY(ARRAY[…])` or `field op ALL(ARRAY[…])` with one `%s`
slot and one bound value per element. -/
theorem quals_to_postgres_spec (quals : List MulticornQual) :
    _quals_to_postgres quals =
      (String.intercalate " AND " (quals.map claimFragment),
        (quals.map claimBoundValues).flatten) ∧
    (∀ f op v, _qual_to_pg (MulticornQual.scalar f op v) =
      (quoteIdent f ++ " " ++ op ++ " %s", [v])) ∧
    (∀ f op isAny vs, _qual_to_pg (MulticornQual.list f op isAny vs) =
      (quoteIdent f ++ " " ++ op ++ " " ++ (if isAny then "ANY" else "ALL") ++
        "(ARRAY[" ++ String.intercalate "," (List.replicate vs.length "%s") ++
        "])", vs) ∧ (_qual_to_pg (MulticornQual.list f op isAny vs)).2.length =
          vs.length) := by
  refine ⟨?_, ?_, ?_⟩
  · have hfold : ∀ (qs : List MulticornQual) (a b : List String),
        qs.foldl (fun acc q =>
          let sv := _qual_to_pg q
          (acc.1 ++ [sv.1], acc.2 ++ sv.2)) (a, b) =
        (a ++ qs.map claimFragment, b ++ (qs.map claimBoundValues).flatten) := by
      intro qs
      induction qs with
      | nil => intro a b; simp
      | cons q rest ih =>
        intro a b
        show rest.foldl _ (a ++ [(_qual_to_pg q).1], b ++ (_qual_to_pg q).2) = _
        rw [ih, qual_to_pg_fragment, qual_to_pg_values]
        simp [List.append_assoc]
    rw [_quals_to_postgres, hfold]
    simp
  · intro f op v
    rw [_qual_to_pg]
    simp [String.append_assoc]
  · intro f op isAny vs
    constructor
    · rw [_qual_to_pg]
      simp [String.append_assoc, List.map_const']
    · rw [qual_to_pg_values]
      rfl

/-- `ChangeEngine.get_change_key` (engine/__init__.py lines 484-489):
`get_primary_keys(...) or get_column_names_types(...)` — the PK columns when
the table has a primary key, else all columns. -/
def get_change_key (pks cols : List (String × String)) :
    List (String × String) :=
  match pks with
  | [] => cols
  | _ => pks

/-- `pk_only_quals = all(q.field_name in ri_cols for q in quals)`
(fdw_checkout.py line 120), where `ri_cols` are the change-key column
names (line 113). -/
def pk_only_quals (quals : List MulticornQual) (riCols : List String) : Bool :=
  quals.all fun q => riCols.contains (field_name q)

/-- Whether `execute` skips Step A (`if not pk_only_quals:` at line 122). -/
def stepA_skipped (quals : List MulticornQual)
    (pks cols : List (String × String)) : Bool :=
  pk_only_quals quals ((get_change_key pks cols).map Prod.fst)

/-- C3 counterexample: a table with NO primary key and a qual on column "b":
`get_change_key` falls back to all columns, so the code computes
`pk_only_quals = true` and skips Step A, although "b" is not a primary-key
column (the table has none) — the claim's "skipped iff every qual column is
a primary-key column" fails, and its "in particular" case is the exact
opposite of what the code does. -/
theorem stepA_skip_counterexample :
    stepA_skipped [MulticornQual.scalar "b" "=" "x"] []
      [("a", "integer"), ("b", "text")] = true ∧
    pk_only_quals [MulticornQual.scalar "b" "=" "x"]
      (([] : List (String × String)).map Prod.fst) = false := by
  exact ⟨by decide, by decide⟩

/-- C3 amended: Step A is skipped iff every column referenced by the quals
is a change-key column, where the change-key columns are the primary-key
columns when the table has a primary key and all columns otherwise (so for
a table with no primary key, a qual on any table column leaves Step A
skipped). -/
theorem stepA_skipped_iff (quals : List MulticornQual)
    (pks cols : List (String × String)) :
    (stepA_skipped quals pks cols = true ↔
      ∀ q ∈ quals,
        ((get_change_key pks cols).map Prod.fst).contains (field_name q) = true) ∧
    (pks ≠ [] → get_change_key pks cols = pks) ∧
    (pks = [] → get_change_key pks cols = cols) := by
  refine ⟨?_, ?_, ?_⟩
  · rw [stepA_skipped, pk_only_quals, List.all_eq_true]
  · intro h
    cases pks with
    | nil => exact absurd rfl h
    | cons p ps => rfl
  · intro h
    subst h
    rfl

/-- Witness for C3 (amended) at a concrete instance: with a primary key
present the change key is exactly the PK column list. -/
theorem stepA_skipped_iff_witness :
    (([("id", "integer")] : List (String × String)) ≠ []) ∧
    get_change_key [("id", "integer")] [("id", "integer"), ("v", "text")] =
      [("id", "integer")] :=
  ⟨by decide,
    (stepA_skipped_iff [] [("id", "integer")]
      [("id", "integer"), ("v", "text")]).2.1 (by decide)⟩

/-! ### Cursor lifecycle of `_run_select_from_staging` -/

/-- Outcome of consuming the `_run_select_from_staging` generator
(fdw_checkout.py lines 60-83): which rows were emitted and which cleanup
actions ran. -/
structure StreamOutcome (ρ : Type) where
  emitted : List ρ
  cursorClosed : Bool
  tableDropped : Bool
  rolledBack : Bool
deriving DecidableEq

/-- The `_run_select_from_staging` generator consumed with `pulls` calls of
`next()` before the caller abandons the stream.  The cleanup block (close
the server-side cursor, drop the staging table when `drop_table`, roll back
the transaction) lives inside the `except StopIteration` handler, which only
runs on the pull after the last row; a caller that closes or abandons the
generator earlier raises `GeneratorExit` at the `yield`, which the
`except StopIteration` clause does not catch and no `finally` intercepts, so
no cleanup action runs. -/
def _run_select_from_staging {ρ : Type} (rows : List ρ) (drop_table : Bool)
    (pulls : Nat) : StreamOutcome ρ :=
  if rows.length < pulls then
    { emitted := rows, cursorClosed := true, tableDropped := drop_table,
      rolledBack := true }
  else
    { emitted := rows.take pulls, cursorClosed := false, tableDropped := false,
      rolledBack := false }

/-- C5 counterexample: a caller that pulls the single row of a slow-path
staging cursor and then cancels (abandons) the stream never reaches the
`except StopIteration` handler: the staging table is not dropped and the
transaction is not rolled back, contradicting the claim that cancellation
releases the resources. -/
theorem cursor_cancel_counterexample :
    (_run_select_from_staging [(0 : Nat)] true 1).emitted = [0] ∧
    (_run_select_from_staging [(0 : Nat)] true 1).tableDropped = false ∧
    (_run_select_from_staging [(0 : Nat)] true 1).rolledBack = false :=
  ⟨by decide, by decide, by decide⟩

/-- C5 amended: the slow-path row stream releases its resources exactly on
exhaustion: when the caller pulls past the last row, every row has been
emitted, the cursor is closed, the staging table is dropped (when the
`drop_table` flag is set, as it is on the slow path) and the staging
transaction is rolled back, and the stream terminates; when the caller
cancels before exhaustion, the generator performs no cleanup (the staging
transaction is only discarded when the connection closes). -/
theorem cursor_cleanup_on_exhaustion {ρ : Type} (rows : List ρ)
    (drop_table : Bool) (pulls : Nat) :
    (rows.length < pulls →
      _run_select_from_staging rows drop_table pulls =
        { emitted := rows, cursorClosed := true, tableDropped := drop_table,
          rolledBack := true }) ∧
    (pulls ≤ rows.length →
      _run_select_from_staging rows drop_table pulls =
        { emitted := rows.take pulls, cursorClosed := false,
          tableDropped := false, rolledBack := false }) := by
  constructor
  · intro h
    rw [_run_select_from_staging, if_pos h]
  · intro h
    rw [_run_select_from_staging, if_neg (Nat.not_lt.mpr h)]

/-- Witness for C5 (amended): pulling past the single row triggers the full
cleanup. -/
theorem cursor_cleanup_witness :
    ([(0 : Nat)].length < 2) ∧
    _run_select_from_staging [(0 : Nat)] true 2 =
      { emitted := [0], cursorClosed := true, tableDropped := true,
        rolledBack := true } :=
  ⟨by decide, (cursor_cleanup_on_exhaustion [(0 : Nat)] true 2).1 (by decide)⟩

/-! ### Savepoint scoping of `SQLEngine.savepoint` -/

/-- State of the engine connection for the savepoint model: the savepoint
stack (`SQLEngine._savepoint_stack`, last element on top) and the log of SQL
statements run on the connection. -/
structure EngState where
  stack : List String
  log : List String
deriving DecidableEq

/-- `run_sql` as it affects the model state: the statement is executed on
the connection (appended to the log). -/
def run_sql (stmt : String) (s : EngState) : EngState :=
  { s with log := s.log ++ [stmt] }

/-- `SQLEngine.savepoint` (engine/__init__.py lines 79-94): run
`SAVEPOINT name` on entry and push the name; run the body (the `with` block,
whose result carries the state it leaves — it may pop the stack when its
`run_sql` rolls back to the savepoint — and whether it raised); in the
`finally` block, release the savepoint iff the stack top is still `name`,
popping it.  An exception from the body propagates. -/
def savepoint (name : String) (body : EngState → EngState × Bool)
    (s : EngState) : EngState × Bool :=
  let s1 := run_sql ("SAVEPOINT " ++ quoteIdent name) s
  let s2 : EngState := { s1 with stack := s1.stack ++ [name] }
  let br := body s2
  let s3 := br.1
  let s4 :=
    if s3.stack.getLast? = some name then
      run_sql ("RELEASE SAVEPOINT " ++ quoteIdent name)
        { s3 with stack := s3.stack.dropLast }
    else s3
  (s4, br.2)

/-- A body whose statement fails and rolls back to the enclosing savepoint,
popping it from the stack — the behaviour the code comment attributes to the
implementer's `run_sql`. -/
def rollbackBody : EngState → EngState × Bool := fun s =>
  ({ stack := s.stack.dropLast,
     log := s.log ++ ["ROLLBACK TO SAVEPOINT \"sp\""] }, true)

/-- C7 counterexample: when the body rolled back to the savepoint (popping
it), the exit path runs NO `RELEASE SAVEPOINT`: the release is guarded by
the stack top still holding the name, so it is not run on every exit path as
the claim states. -/
theorem savepoint_release_counterexample :
    (savepoint "sp" rollbackBody { stack := [], log := [] }).1.log =
      ["SAVEPOINT \"sp\"", "ROLLBACK TO SAVEPOINT \"sp\""] ∧
    ¬ ("RELEASE SAVEPOINT \"sp\"" ∈
        (savepoint "sp" rollbackBody { stack := [], log := [] }).1.log) :=
  ⟨by decide, by decide⟩

/-- The state the body of `savepoint` runs in: `SAVEPOINT name` has been run
and the name pushed on the savepoint stack. -/
def savepoint_entry (name : String) (s : EngState) : EngState :=
  { stack := s.stack ++ [name],
    log := s.log ++ ["SAVEPOINT " ++ quoteIdent name] }

/-- C7 amended: `savepoint` runs `SAVEPOINT name` on entry, and whenever the
body leaves the savepoint stack as it found it (the pushed name still on
top), every exit path — normal or error alike — runs
`RELEASE SAVEPOINT name` and leaves the savepoint stack equal to the stack
on entry; the body's exception, if any, propagates.  (When the body popped
the savepoint by rolling back to it, only the release is suppressed.) -/
theorem savepoint_scoped_release (name : String)
    (body : EngState → EngState × Bool) (s : EngState)
    (hbody : (body (savepoint_entry name s)).1.stack = s.stack ++ [name]) :
    (savepoint name body s).1.stack = s.stack ∧
    (savepoint name body s).1.log =
      (body (savepoint_entry name s)).1.log ++
        ["RELEASE SAVEPOINT " ++ quoteIdent name] ∧
    (savepoint name body s).2 = (body (savepoint_entry name s)).2 := by
  have hunfold : savepoint name body s =
      (if ((body (savepoint_entry name s)).1.stack).getLast? = some name then
        run_sql ("RELEASE SAVEPOINT " ++ quoteIdent name)
          { (body (savepoint_entry name s)).1 with
            stack := ((body (savepoint_entry name s)).1.stack).dropLast }
       else (body (savepoint_entry name s)).1,
       (body (savepoint_entry name s)).2) := rfl
  rw [hunfold, if_pos (by rw [hbody]; simp)]
  refine ⟨?_, rfl, rfl⟩
  show ((body (savepoint_entry name s)).1.stack).dropLast = s.stack
  rw [hbody]
  simp

/-- Witness for C7 (amended): a body that only runs a statement leaves the
stack intact, so the savepoint is released and the stack restored. -/
theorem savepoint_scoped_release_witness :
    (((fun st => (run_sql "UPDATE t SET x = 1" st, false))
        (savepoint_entry "sp" { stack := ["outer"], log := [] })).1.stack =
      ["outer"] ++ ["sp"]) ∧
    (savepoint "sp" (fun st => (run_sql "UPDATE t SET x = 1" st, false))
        { stack := ["outer"], log := [] }).1.stack = ["outer"] := by
  refine ⟨by decide, ?_⟩
  exact (savepoint_scoped_release "sp"
    (fun st => (run_sql "UPDATE t SET x = 1" st, false))
    { stack := ["outer"], log := [] } (by decide)).1

/-! ### The process-wide engine handle and `switch_engine` -/

/-- `switch_engine` (engine/__init__.py lines 652-666): save the current
process-wide `_ENGINE`, set it to the given engine, run the body against the
switched state (the body returns the engine value it leaves installed, plus
whether it raised), and in the `finally` block restore the saved value
unconditionally; an exception from the body propagates.  The result is the
final `_ENGINE` value and the propagated outcome. -/
def switch_engine {E : Type} (engine : E) (body : E → E × Bool)
    (cur : E) : E × Bool :=
  let prev := cur
  let r := body engine
  (prev, r.2)

/-- C9: scoped engine override restores state on all exits: for every
engine, every body (normal or raising, even one that reassigns the global
engine) and every prior `_ENGINE` value, after `switch_engine` exits the
process-wide engine equals its value from before entry; the body runs
against the switched engine (it is invoked on `engine`) and its outcome
propagates. -/
theorem switch_engine_restores {E : Type} (engine : E)
    (body : E → E × Bool) (cur : E) :
    (switch_engine engine body cur).1 = cur ∧
    (switch_engine engine body cur).2 = (body engine).2 :=
  ⟨rfl, rfl⟩

/-! ### Engine configuration defaulting (`_prepare_engine_config`) -/

/-- `_ENGINE_SPECIFIC_CONFIG` (engine/__init__.py lines 28-41). -/
def _ENGINE_SPECIFIC_CONFIG : List String :=
  ["SG_ENGINE_HOST", "SG_ENGINE_PORT", "SG_ENGINE_USER", "SG_ENGINE_PWD",
   "SG_ENGINE_DB_NAME", "SG_ENGINE_POSTGRES_DB_NAME", "SG_ENGINE_ADMIN_USER",
   "SG_ENGINE_ADMIN_PWD", "SG_ENGINE_FDW_HOST", "SG_ENGINE_FDW_PORT",
   "SG_ENGINE_OBJECT_PATH", "SG_NAMESPACE"]

/-- `_ENGINE_CONFIG_DEFAULTS` (engine/__init__.py lines 44-47). -/
def _ENGINE_CONFIG_DEFAULTS : String → Option String := fun k =>
  if k = "SG_ENGINE_FDW_HOST" then some "SG_ENGINE_HOST"
  else if k = "SG_ENGINE_FDW_PORT" then some "SG_ENGINE_PORT"
  else none

/-- Python dict assignment `result[key] = value`: overwrite in place,
appending when the key is new. -/
def dictSet (res : List (String × String)) (k v : String) :
    List (String × String) :=
  match lookupT res k with
  | some _ => res.map fun r => if r.1 = k then (r.1, v) else r
  | none => res ++ [(k, v)]

theorem lookupT_dictSet (res : List (String × String)) (k v k1 : String) :
    lookupT (dictSet res k v) k1 =
      if k1 = k then some v else lookupT res k1 := by
  unfold dictSet
  cases hl : lookupT res k with
  | some w =>
    have hmap : (res.map fun r => if r.1 = k then (r.1, v) else r) =
        updRow k v res := rfl
    rw [hmap, lookupT_updRow]
    by_cases h1 : k1 = k
    · subst h1
      simp [hl]
    · simp [h1]
  | none =>
    by_cases h1 : k1 = k
    · subst h1
      rw [lookupT_append_none _ hl, if_pos rfl]
      simp [lookupT]
    · rw [if_neg h1]
      cases hl1 : lookupT res k1 with
      | some w1 => rw [lookupT_append_some hl1]
      | none =>
        rw [lookupT_append_none _ hl1]
        simp [lookupT, h1]


/-- One iteration of the `_prepare_engine_config` loop
(engine/__init__.py lines 50-57): when the key has a configured default,
`result[key] = config_dict[_ENGINE_CONFIG_DEFAULTS[key]]` — which raises
`KeyError` (modelled as `Except.error`) when the defaulted-from key is
absent — and then, when the key itself is present,
`result[key] = config_dict[key]`. -/
def prepare_step (cfg : List (String × String)) (res : List (String × String))
    (key : String) : Except Unit (List (String × String)) := do
  let res1 ← match _ENGINE_CONFIG_DEFAULTS key with
    | some dkey =>
      match lookupT cfg dkey with
      | some v => pure (dictSet res key v)
      | none => throw ()
    | none => pure res
  match lookupT cfg key with
  | some v => pure (dictSet res1 key v)
  | none => pure res1

/-- `_prepare_engine_config` (engine/__init__.py lines 50-57). -/
def _prepare_engine_config (cfg : List (String × String)) :
    Except Unit (List (String × String)) :=
  _ENGINE_SPECIFIC_CONFIG.foldlM (prepare_step cfg) []

theorem prepare_step_char (cfg res : List (String × String)) (key : String)
    (hdef : ∀ dk, _ENGINE_CONFIG_DEFAULTS key = some dk →
      (lookupT cfg dk).isSome = true) :
    ∃ r1, prepare_step cfg res key = Except.ok r1 ∧
      ∀ k1, lookupT r1 k1 =
        if k1 = key then
          match lookupT cfg key with
          | some v => some v
          | none =>
            match _ENGINE_CONFIG_DEFAULTS key with
            | some dk => lookupT cfg dk
            | none => lookupT res key
        else lookupT res k1 := by
  cases hd : _ENGINE_CONFIG_DEFAULTS key with
  | none =>
    cases hc : lookupT cfg key with
    | none =>
      refine ⟨res, ?_, ?_⟩
      · rw [prepare_step, hd, hc]
        rfl
      · intro k1
        by_cases hk : k1 = key
        · subst hk
          rw [if_pos rfl]
        · rw [if_neg hk]
    | some v =>
      refine ⟨dictSet res key v, ?_, ?_⟩
      · rw [prepare_step, hd, hc]
        rfl
      · intro k1
        rw [lookupT_dictSet]
  | some dk =>
    have hsome := hdef dk hd
    cases hv : lookupT cfg dk with
    | none =>
      rw [hv] at hsome
      cases hsome
    | some dv =>
      cases hc : lookupT cfg key with
      | none =>
        refine ⟨dictSet res key dv, ?_, ?_⟩
        · simp only [prepare_step, hd, hv, hc]
          rfl
        · intro k1
          rw [lookupT_dictSet]
          by_cases hk : k1 = key
          · subst hk
            simp [hv]
          · simp [hk]
      | some v =>
        refine ⟨dictSet (dictSet res key dv) key v, ?_, ?_⟩
        · simp only [prepare_step, hd, hv, hc]
          rfl
        · intro k1
          rw [lookupT_dictSet, lookupT_dictSet]
          by_cases hk : k1 = key
          · subst hk
            simp
          · simp [hk]

theorem prepare_fold_char (cfg : List (String × String)) :
    ∀ (ks : List String) (res : List (String × String)),
      (∀ k ∈ ks, ∀ dk, _ENGINE_CONFIG_DEFAULTS k = some dk →
        (lookupT cfg dk).isSome = true) →
      ∃ r, ks.foldlM (prepare_step cfg) res = Except.ok r ∧
        ∀ k1, lookupT r k1 =
          if k1 ∈ ks then
            match lookupT cfg k1 with
            | some v => some v
            | none =>
              match _ENGINE_CONFIG_DEFAULTS k1 with
              | some dk => lookupT cfg dk
              | none => lookupT res k1
          else lookupT res k1 := by
  intro ks
  induction ks with
  | nil =>
    intro res _
    refine ⟨res, rfl, ?_⟩
    intro k1
    rw [if_neg (List.not_mem_nil k1)]
  | cons k ks ih =>
    intro res hdef
    obtain ⟨r1, hstep, hchar1⟩ := prepare_step_char cfg res k
      (hdef k (List.mem_cons_self k ks))
    obtain ⟨r, hfold, hchar⟩ := ih r1
      (fun k2 hk2 => hdef k2 (List.mem_cons_of_mem k hk2))
    refine ⟨r, ?_, ?_⟩
    · rw [List.foldlM_cons, hstep]
      exact hfold
    · intro k1
      rw [hchar k1]
      by_cases hmem : k1 ∈ ks
      · rw [if_pos hmem, if_pos (List.mem_cons_of_mem k hmem)]
        cases hck : lookupT cfg k1 with
        | some v => rfl
        | none =>
          cases hdk : _ENGINE_CONFIG_DEFAULTS k1 with
          | some dk => rfl
          | none =>
            rw [hchar1 k1]
            by_cases hkk : k1 = k
            · subst hkk
              rw [if_pos rfl, hck, hdk]
            · rw [if_neg hkk]
      · rw [if_neg hmem]
        by_cases hkk : k1 = k
        · subst hkk
          rw [if_pos (List.mem_cons_self k1 ks), hchar1 k1, if_pos rfl]
        · rw [if_neg (by simp [hkk, hmem] : ¬ k1 ∈ k :: ks), hchar1 k1,
            if_neg hkk]

/-- C8: configuration defaulting: provided the input config maps
`SG_ENGINE_HOST` and `SG_ENGINE_PORT` (`_prepare_engine_config` raises a
`KeyError` otherwise), the produced engine config maps
`SG_ENGINE_FDW_HOST` to the input `SG_ENGINE_FDW_HOST` when that key is
present and to the input `SG_ENGINE_HOST` otherwise, and likewise
`SG_ENGINE_FDW_PORT` defaults to `SG_ENGINE_PORT`. -/
theorem prepare_engine_config_fdw_defaults (cfg : List (String × String))
    (h p : String) (hh : lookupT cfg "SG_ENGINE_HOST" = some h)
    (hp : lookupT cfg "SG_ENGINE_PORT" = some p) :
    ∃ r, _prepare_engine_config cfg = Except.ok r ∧
      lookupT r "SG_ENGINE_FDW_HOST" =
        some ((lookupT cfg "SG_ENGINE_FDW_HOST").getD h) ∧
      lookupT r "SG_ENGINE_FDW_PORT" =
        some ((lookupT cfg "SG_ENGINE_FDW_PORT").getD p) := by
  have hdef : ∀ k ∈ _ENGINE_SPECIFIC_CONFIG, ∀ dk,
      _ENGINE_CONFIG_DEFAULTS k = some dk →
      (lookupT cfg dk).isSome = true := by
    intro k _ dk hdk
    simp only [_ENGINE_CONFIG_DEFAULTS] at hdk
    by_cases h1 : k = "SG_ENGINE_FDW_HOST"
    · rw [if_pos h1] at hdk
      have hdk2 : dk = "SG_ENGINE_HOST" := (Option.some.inj hdk).symm
      subst hdk2
      rw [hh]
      rfl
    · rw [if_neg h1] at hdk
      by_cases h2 : k = "SG_ENGINE_FDW_PORT"
      · rw [if_pos h2] at hdk
        have hdk2 : dk = "SG_ENGINE_PORT" := (Option.some.inj hdk).symm
        subst hdk2
        rw [hp]
        rfl
      · rw [if_neg h2] at hdk
        cases hdk
  obtain ⟨r, hok, hchar⟩ :=
    prepare_fold_char cfg _ENGINE_SPECIFIC_CONFIG [] hdef
  refine ⟨r, hok, ?_, ?_⟩
  · rw [hchar "SG_ENGINE_FDW_HOST", if_pos (by decide)]
    cases hfh : lookupT cfg "SG_ENGINE_FDW_HOST" with
    | some v => rfl
    | none =>
      show lookupT cfg "SG_ENGINE_HOST" = some (Option.getD none h)
      rw [hh]
      rfl
  · rw [hchar "SG_ENGINE_FDW_PORT", if_pos (by decide)]
    cases hfp : lookupT cfg "SG_ENGINE_FDW_PORT" with
    | some v => rfl
    | none =>
      show lookupT cfg "SG_ENGINE_PORT" = some (Option.getD none p)
      rw [hp]
      rfl

/-- Witness for C8 at a concrete config without FDW keys: both fall back to
the engine host and port. -/
theorem prepare_engine_config_fdw_defaults_witness :
    (lookupT [("SG_ENGINE_HOST", "localhost"), ("SG_ENGINE_PORT", "5432")]
      "SG_ENGINE_HOST" = some "localhost") ∧
    ∃ r, _prepare_engine_config
        [("SG_ENGINE_HOST", "localhost"), ("SG_ENGINE_PORT", "5432")] =
        Except.ok r ∧
      lookupT r "SG_ENGINE_FDW_HOST" =
        some ((lookupT [("SG_ENGINE_HOST", "localhost"),
          ("SG_ENGINE_PORT", "5432")] "SG_ENGINE_FDW_HOST").getD "localhost") ∧
      lookupT r "SG_ENGINE_FDW_PORT" =
        some ((lookupT [("SG_ENGINE_HOST", "localhost"),
          ("SG_ENGINE_PORT", "5432")] "SG_ENGINE_FDW_PORT").getD "5432") :=
  ⟨by decide,
    prepare_engine_config_fdw_defaults _ "localhost" "5432" (by decide)
      (by decide)⟩

/-! ### `SQLEngine.dump_table_creation` -/

/-- A table schema spec entry:
(ordinal position, column name, data type, is_pk). -/
abbrev SchemaEntry := Nat × String × String × Bool

/-- The Python tuple-comparison key of a schema entry: lexicographic on
(ordinal, name, type, is_pk), booleans ordered False < True. -/
def specKey (a : SchemaEntry) : Lex (Nat × Lex (String × Lex (String × Bool))) :=
  toLex (a.1, toLex (a.2.1, toLex (a.2.2.1, a.2.2.2)))

/-- The order used by Python `sorted` on schema-spec tuples. -/
def specLe (a b : SchemaEntry) : Prop := specKey a ≤ specKey b

instance : DecidableRel specLe := fun a b =>
  inferInstanceAs (Decidable (specKey a ≤ specKey b))

instance : IsTotal SchemaEntry specLe :=
  ⟨fun a b => le_total (specKey a) (specKey b)⟩

instance : IsTrans SchemaEntry specLe :=
  ⟨fun _ _ _ h1 h2 => le_trans h1 h2⟩

instance : IsAntisymm SchemaEntry specLe := ⟨by
  intro a b h1 h2
  have hk : specKey a = specKey b := le_antisymm h1 h2
  have e1 : a.1 = b.1 := congrArg (fun x => (ofLex x).1) hk
  have e2 : a.2.1 = b.2.1 := congrArg (fun x => (ofLex (ofLex x).2).1) hk
  have e3 : a.2.2.1 = b.2.2.1 :=
    congrArg (fun x => (ofLex (ofLex (ofLex x).2).2).1) hk
  have e4 : a.2.2.2 = b.2.2.2 :=
    congrArg (fun x => (ofLex (ofLex (ofLex x).2).2).2) hk
  exact Prod.ext e1 (Prod.ext e2 (Prod.ext e3 e4))⟩

theorem specLe_ordinal {a b : SchemaEntry} (h : specLe a b) : a.1 ≤ b.1 := by
  rcases (Prod.Lex.le_iff _ _).mp h with h1 | ⟨h1, _⟩
  · exact le_of_lt h1
  · exact le_of_eq h1

/-- `sorted(schema_spec)` (engine/__init__.py line 309). -/
def sortSchemaSpec (spec : List SchemaEntry) : List SchemaEntry :=
  List.insertionSort specLe spec

/-- The tail of the statement after the column list: the PRIMARY KEY clause
over the `pk_cols` of the (already sorted) spec when any column is a primary
key, else just the closing parenthesis
(engine/__init__.py lines 323-331). -/
def pk_clause (sortedSpec : List SchemaEntry) : String :=
  let pk_cols := (sortedSpec.filter fun e => e.2.2.2).map fun e => e.2.1
  if pk_cols.isEmpty then ")"
  else ", PRIMARY KEY (" ++
    String.intercalate "," (pk_cols.map quoteIdent) ++ "))"

/-- `SQLEngine.dump_table_creation` (engine/__init__.py lines 285-334):
sorts the schema spec, then emits
`CREATE <flavour> TABLE <target> (<col type >,… <pk clause>)` plus the
UNLOGGED suffix.  The `schema` parameter is ignored for temporary tables. -/
def dump_table_creation (schema table : String) (schema_spec : List SchemaEntry)
    (unlogged temporary : Bool) : String :=
  let flavour := if temporary then "TEMPORARY"
    else if unlogged then "UNLOGGED" else ""
  let sortedSpec := sortSchemaSpec schema_spec
  let target := if temporary then quoteIdent table
    else quoteIdent schema ++ "." ++ quoteIdent table
  let colsPart := String.intercalate ","
    (sortedSpec.map fun e => quoteIdent e.2.1 ++ " " ++ e.2.2.1 ++ " ")
  let unloggedPart := if unlogged then " WITH(autovacuum_enabled=false)" else ""
  "CREATE " ++ flavour ++ " TABLE " ++ target ++ " (" ++ colsPart ++
    pk_clause sortedSpec ++ unloggedPart

/-- C10: DDL canonicalization: `dump_table_creation` sorts the schema spec
before building the statement, so two schema specs that are permutations of
each other produce the identical CREATE TABLE statement; the columns are
emitted in (nondecreasing) ordinal order; and the PRIMARY KEY clause is
present (the statement tail differs from a bare closing parenthesis) iff
some entry is a primary-key column. -/
theorem dump_table_creation_canonical (schema table : String)
    (spec1 spec2 : List SchemaEntry) (unlogged temporary : Bool)
    (hperm : List.Perm spec1 spec2) :
    dump_table_creation schema table spec1 unlogged temporary =
      dump_table_creation schema table spec2 unlogged temporary ∧
    ((sortSchemaSpec spec1).map (fun e => e.1)).Sorted (· ≤ ·) ∧
    (pk_clause (sortSchemaSpec spec1) = ")" ↔
      ∀ e ∈ spec1, e.2.2.2 = false) := by
  have hsort : sortSchemaSpec spec1 = sortSchemaSpec spec2 := by
    apply List.eq_of_perm_of_sorted (r := specLe)
    · exact (List.perm_insertionSort specLe spec1).trans
        (hperm.trans (List.perm_insertionSort specLe spec2).symm)
    · exact List.sorted_insertionSort specLe spec1
    · exact List.sorted_insertionSort specLe spec2
  refine ⟨?_, ?_, ?_⟩
  · unfold dump_table_creation
    rw [hsort]
  · exact List.Pairwise.map (fun e => e.1) (fun a b h => specLe_ordinal h)
      (List.sorted_insertionSort specLe spec1)
  · rw [pk_clause]
    by_cases hemp :
        (((sortSchemaSpec spec1).filter fun e => e.2.2.2).map
          fun e => e.2.1).isEmpty = true
    · rw [if_pos hemp]
      simp only [List.isEmpty_iff, List.map_eq_nil_iff,
        List.filter_eq_nil_iff] at hemp
      constructor
      · intro _ e he
        have := hemp e ((List.mem_insertionSort specLe).mpr he)
        simp only [Bool.not_eq_true] at this
        exact this
      · intro _
        rfl
    · rw [if_neg hemp]
      simp only [List.isEmpty_iff, List.map_eq_nil_iff,
        List.filter_eq_nil_iff, not_forall] at hemp
      constructor
      · intro hstr
        have hlen := congrArg String.length hstr
        rw [String.length_append, String.length_append] at hlen
        have e1 : (", PRIMARY KEY (").length = 15 := by decide
        have e2 : ("))").length = 2 := by decide
        have e3 : (")").length = 1 := by decide
        rw [e1, e2, e3] at hlen
        omega
      · intro hall
        obtain ⟨e, he, hpk⟩ := hemp
        have := hall e ((List.mem_insertionSort specLe).mp he)
        rw [this] at hpk
        simp at hpk

/-- Witness for C10 at a concrete permuted pair of schema specs. -/
theorem dump_table_creation_canonical_witness :
    List.Perm
      [((1 : Nat), ("id", ("integer", true))), (2, ("v", ("text", false)))]
      [((2 : Nat), ("v", ("text", false))), (1, ("id", ("integer", true)))] ∧
    dump_table_creation "meta" "t"
      [((1 : Nat), ("id", ("integer", true))), (2, ("v", ("text", false)))]
      false false =
    dump_table_creation "meta" "t"
      [((2 : Nat), ("v", ("text", false))), (1, ("id", ("integer", true)))]
      false false :=
  ⟨by decide,
    (dump_table_creation_canonical "meta" "t" _ _ false false (by decide)).1⟩
